import Mathlib

/-!
# Verification of the Google-Sheets reconciliation engine (`gsheets_sync.py`)

Shallow embedding of the merge logic of `GSheetsSync` from
`src/ai-triathlon-coach/gsheets_sync.py`:

* `reformat_date` — the key normalizer defined inside `_upsert_data`
  (lines 123–130 of the source);
* `upsertData` — `_upsert_data` (ColumnMerge, lines 105–217);
* `incrementalMergeData` — `_incremental_merge_data` (KeyRangeReplace,
  lines 279–366, including the unreachable-looking trailing code that
  references the undefined name `data`).

Modelling conventions:

* A worksheet (`WS`) is the header row plus the written grid of strings —
  exactly what `worksheet.clear()` / `worksheet.update(values=...)` writes
  and what `get_all_records()` reads back.
* A `Row` is an association list of present cells; an absent key is
  pandas `NaN`/`NaT`.  All scalar cell values are modelled as strings
  (the sheet stores strings; `astype(str)` is then the identity on
  present cells and turns an absent cell into the literal string `"nan"`,
  as `str(float('nan'))` does).
* `pd.to_datetime(_, errors='coerce')` is modelled by `parseDate`,
  covering the ISO `YYYY-MM-DD` form and the slash form `MM/DD/YYYY`
  (a representative subset of the heterogeneous formats pandas accepts);
  `pd.to_datetime(_, format="%Y-%m-%d", errors='coerce')` — the strict
  form used only to build the sort key — is modelled by `isoParse`.
* `df.sort_values(by=..., ascending=False)` is called with the default
  `kind='quicksort'`, which pandas documents as *not* stable; its
  guarantees are captured by the relation `sortValuesSpec`: the output is
  a permutation of the input, ordered descending with unparseable/missing
  dates last (`na_position` defaults to `'last'`, and the `NaN` block is
  appended in original order), while the relative order of rows with
  equal parseable keys is unspecified.  The executable `sortRows` (a
  stable insertion sort) is one admissible behaviour of that contract and
  serves as the representative for computing written tables; theorems
  about written tables are stated in forms insensitive to the order of
  tied rows (membership, existence, row counts, permutations of grids or
  cell multisets), so they hold for every admissible behaviour, and the
  unguaranteed tie stability itself is refuted against the contract.
* `df_existing.update(df_new)` reindexes `df_new` on the existing index;
  when `df_new` carries duplicate index labels and the two indexes are
  not identical this raises (`cannot reindex on an axis with duplicate
  labels`), which the `except` block re-raises; the model returns the
  worksheet unchanged with outcome `.raised`.
* The dead code at the end of `_incremental_merge_data` executes after
  the `try`/`except` block succeeds; evaluating the undefined name
  `data` then raises `NameError`, after the sheet has already been
  cleared and rewritten.  The model records the I/O operations performed
  and the outcome of the call.
-/

/-- A cell row: association list from column name to (string) value.
An absent column is pandas `NaN`. -/
abbrev Row := List (String × String)

/-- First-match lookup of a cell, `none` = `NaN`. -/
def Row.get : Row → String → Option String
  | [], _ => none
  | (c', v) :: r, c => if c' = c then some v else Row.get r c

/-- Cell read with `NaN` rendered as the empty string (`fillna("")`). -/
def Row.getD (r : Row) (c : String) : String := (Row.get r c).getD ""

/-- Column assignment: overwrite every cell of column `c` (pandas column
assignment), appending the column if absent. -/
def Row.set (r : Row) (c v : String) : Row :=
  if (Row.get r c).isSome then r.map (fun p => (p.1, if p.1 = c then v else p.2))
  else r ++ [(c, v)]

/-- The worksheet state: header row plus written grid, as produced by
`worksheet.update(range_name='A1', values=[header] + values)`. -/
structure WS where
  header : List String
  grid : List (List String)
deriving DecidableEq, Repr

/-- `worksheet.get_all_records()`: one dict per data row, keys from the
header row. -/
def getAllRecords (ws : WS) : List Row :=
  ws.grid.map (fun vs => ws.header.zip vs)

/-- Append the elements of `ks` not already present (first-appearance
order), as `pd.DataFrame` accumulates columns from a list of dicts. -/
def colUnion (acc : List String) (ks : List String) : List String :=
  ks.foldl (fun a k => if k ∈ a then a else a ++ [k]) acc

/-- The column set of `pd.DataFrame(data)`: union of the dict keys in
first-appearance order. -/
def dfCols (data : List Row) : List String :=
  data.foldl (fun a r => colUnion a (r.map Prod.fst)) []

/-! ## Date handling -/

/-- A calendar date as parsed by the model of `pd.to_datetime`. -/
structure YMD where
  y : Nat
  m : Nat
  d : Nat
deriving DecidableEq, Repr

/-- Decimal digit character for `k % 10`. -/
def digitChar10 (k : Nat) : Char :=
  match k % 10 with
  | 0 => '0' | 1 => '1' | 2 => '2' | 3 => '3' | 4 => '4'
  | 5 => '5' | 6 => '6' | 7 => '7' | 8 => '8' | _ => '9'

/-- Parse a decimal digit character. -/
def dig? (c : Char) : Option Nat :=
  if 48 ≤ c.toNat ∧ c.toNat ≤ 57 then some (c.toNat - 48) else none

/-- Two-digit zero-padded rendering (`%m`, `%d`). -/
def pad2 (n : Nat) : List Char := [digitChar10 (n / 10), digitChar10 n]

/-- Four-digit zero-padded rendering (`%Y`). -/
def pad4 (n : Nat) : List Char :=
  [digitChar10 (n / 1000), digitChar10 (n / 100), digitChar10 (n / 10), digitChar10 n]

/-- `dt.strftime("%Y-%m-%d")`. -/
def fmtYMD (x : YMD) : String :=
  ⟨pad4 x.y ++ '-' :: (pad2 x.m ++ '-' :: pad2 x.d)⟩

/-- Range-validated date constructor shared by the parsers: months and
days outside calendar ranges give `NaT`. -/
def mkYMD? (y m d : Nat) : Option YMD :=
  if 1 ≤ m ∧ m ≤ 12 ∧ 1 ≤ d ∧ d ≤ 31 then some ⟨y, m, d⟩ else none

/-- Strict `YYYY-MM-DD` parsing on the character list, with range
validation; models `pd.to_datetime(_, format="%Y-%m-%d", errors='coerce')`. -/
def isoParseL : List Char → Option YMD
  | [y1, y2, y3, y4, s1, m1, m2, s2, d1, d2] =>
    if s1 = '-' ∧ s2 = '-' then
      match dig? y1, dig? y2, dig? y3, dig? y4, dig? m1, dig? m2, dig? d1, dig? d2 with
      | some a, some b, some c, some d, some e, some f, some g, some h =>
        mkYMD? (((a * 10 + b) * 10 + c) * 10 + d) (e * 10 + f) (g * 10 + h)
      | _, _, _, _, _, _, _, _ => none
    else none
  | _ => none

/-- Strict ISO parse of a string. -/
def isoParse (s : String) : Option YMD := isoParseL s.data

/-- `MM/DD/YYYY` (also one-digit month/day) parsing, with range
validation: the representative locale form accepted by `pd.to_datetime`. -/
def slashParseL : List Char → Option YMD
  | [m1, s1, d1, s2, y1, y2, y3, y4] =>
    if s1 = '/' ∧ s2 = '/' then
      match dig? m1, dig? d1, dig? y1, dig? y2, dig? y3, dig? y4 with
      | some e, some g, some a, some b, some c, some d =>
        mkYMD? (((a * 10 + b) * 10 + c) * 10 + d) e g
      | _, _, _, _, _, _ => none
    else none
  | [m1, m2, s1, d1, d2, s2, y1, y2, y3, y4] =>
    if s1 = '/' ∧ s2 = '/' then
      match dig? m1, dig? m2, dig? d1, dig? d2, dig? y1, dig? y2, dig? y3, dig? y4 with
      | some e, some f, some g, some h, some a, some b, some c, some d =>
        mkYMD? (((a * 10 + b) * 10 + c) * 10 + d) (e * 10 + f) (g * 10 + h)
      | _, _, _, _, _, _, _, _ => none
    else none
  | _ => none

/-- Flexible date parsing: models `pd.to_datetime(d, errors='coerce')`
restricted to the ISO and slash formats; `none` is `NaT`. -/
def parseDate (s : String) : Option YMD :=
  match isoParse s with
  | some x => some x
  | none => slashParseL s.data

/-- The key normalizer `reformat_date` defined inside `_upsert_data`
(source lines 123–130): falsy input gives `""`, parseable input is
re-emitted as `YYYY-MM-DD`, unparseable input is returned unchanged. -/
def reformat_date (s : String) : String :=
  if s = "" then ""
  else
    match parseDate s with
    | none => s
    | some x => fmtYMD x

/-! ## The sort step -/

/-- Numeric sort key of a date (lexicographic in (y, m, d)). -/
def ymdKey (x : YMD) : Nat := (x.y * 100 + x.m) * 100 + x.d

/-- Sort key of a row: the strictly parsed `Date` cell (`NaT` if the
cell is absent or does not match `%Y-%m-%d`). -/
def sortKey (r : Row) : Option Nat :=
  match Row.get r "Date" with
  | none => none
  | some v => (isoParse v).map ymdKey

/-- Descending order on optional keys with `NaT` last — the order used by
`sort_values(by=..., ascending=False)` with the default `na_position='last'`. -/
def keyLE : Option Nat → Option Nat → Bool
  | some x, some y => y ≤ x
  | some _, none => true
  | none, some _ => false
  | none, none => true

/-- Row comparison for the sort step. -/
def rowOrd (a b : Row) : Prop := keyLE (sortKey a) (sortKey b) = true

instance : DecidableRel rowOrd := fun a b =>
  inferInstanceAs (Decidable (_ = true))

/-- Executable representative of the sort used before write-back.  The
source calls `sort_values` with the default `kind='quicksort'`, which is
documented as not stable, so the order of rows with equal parseable keys
is unspecified; `sortRows` is one admissible behaviour of the contract
`sortValuesSpec` below. -/
def sortRows (l : List Row) : List Row := List.insertionSort rowOrd l

/-- Contract of `df.sort_values(by=..., ascending=False)` with the
default `kind='quicksort'` and `na_position='last'` (source lines
198–203 and 323–326): the output is a permutation of the input, sorted
descending with unparseable (`NaT`) keys last, and the `NaT` block keeps
its original relative order (it is split off before the kind-specific
sort and appended as-is); the relative order of rows with equal
parseable keys is NOT specified, the default kind being documented as
not stable. -/
def sortValuesSpec (l l' : List Row) : Prop :=
  l'.Perm l ∧ List.Sorted rowOrd l'
    ∧ l'.filter (fun r => decide (sortKey r = none))
      = l.filter (fun r => decide (sortKey r = none))

/-! ## Write-back -/

/-- One written grid row: `df_final.fillna("")` followed by
`values.tolist()` — each column's cell, `NaN` as `""`. -/
def matRow (cols : List String) (r : Row) : List String :=
  cols.map (fun c => Row.getD r c)

/-- `worksheet.clear()` + `worksheet.update(values=[cols] + rows)`. -/
def writeWS (cols : List String) (rows : List Row) : WS :=
  ⟨cols, rows.map (matRow cols)⟩

/-- The row read back by `get_all_records` for a written row: every
column present, absent cells materialized as `""`. -/
def rbRow (cols : List String) (r : Row) : Row :=
  cols.zip (matRow cols r)

/-! ## `_upsert_data` (ColumnMerge) -/

/-- Outcome of a `_upsert_data` call: normal return or a raised
exception (`raise` at source line 217). -/
inductive UpOutcome
  | ok
  | raised
deriving DecidableEq, Repr

/-- `df["Date"] = df["Date"].apply(reformat_date)`: present cells are
normalized; an absent cell is `NaN`, and `reformat_date(nan)` returns
`str(nan) = "nan"`. -/
def applyDateCol (rows : List Row) : List Row :=
  rows.map (fun r =>
    match Row.get r "Date" with
    | some v => Row.set r "Date" (reformat_date v)
    | none => Row.set r "Date" "nan")

/-- `df[key] = df[key].astype(str)`: a present (string) cell is
unchanged, an absent cell (`NaN`) becomes the string `"nan"`. -/
def astypeKey (key : String) (rows : List Row) : List Row :=
  rows.map (fun r => if (Row.get r key).isSome then r else Row.set r key "nan")

/-- The (string) index value of a row after `set_index(key)`. -/
def kOf (key : String) (r : Row) : String := Row.getD r key

/-- The normalized `Date` key of a raw incoming row, as produced by the
`apply(reformat_date)` + `astype(str)` pipeline of `_upsert_data`: a
present cell is normalized, an absent cell becomes `"nan"`. -/
def normKey (r : Row) : String :=
  match Row.get r "Date" with
  | some v => reformat_date v
  | none => "nan"

/-- Lexicographic byte order on strings, used for
`pd.Index.difference` (which returns its result sorted). -/
def strLeB : List Char → List Char → Bool
  | [], _ => true
  | _ :: _, [] => false
  | a :: as, b :: bs =>
    if a.toNat < b.toNat then true
    else if b.toNat < a.toNat then false
    else strLeB as bs

/-- Order relation form of `strLeB`. -/
def strLe (a b : String) : Prop := strLeB a.data b.data = true

instance : DecidableRel strLe := fun a b =>
  inferInstanceAs (Decidable (_ = true))

/-- `df_new.columns.difference(df_existing.columns)`: the columns of the
batch absent from the snapshot, sorted. -/
def newColsOf (colsE colsN : List String) : List String :=
  List.insertionSort strLe (colsN.filter (fun c => c ∉ colsE))

/-- One row of `df_existing.update(df_new)`: every column of the batch
whose incoming cell is non-`NaN` is overwritten. -/
def updateRow (colsN : List String) (n r : Row) : Row :=
  colsN.foldl (fun acc c =>
    match Row.get n c with
    | some v => Row.set acc c v
    | none => acc) r

/-- `df_existing.update(df_new)` applied to all existing rows.  When the
two indexes are identical, `other.reindex(self.index)` is the identity
and pairing is positional; otherwise each existing index label is
matched against the (unique) incoming index. -/
def updateAll (key : String) (colsN : List String) (erows nrows : List Row) : List Row :=
  if erows.map (kOf key) = nrows.map (kOf key) then
    (erows.zip nrows).map (fun p => updateRow colsN p.2 p.1)
  else
    erows.map (fun r =>
      match nrows.find? (fun n => kOf key n = kOf key r) with
      | some n => updateRow colsN n r
      | none => r)

/-- The final sort-and-write step shared by both write paths of
`_upsert_data` (source lines 197–212): sort by `Date` when present,
`fillna("")`, clear and rewrite. -/
def upsertFinish (cols : List String) (rows0 : List Row) : WS :=
  writeWS cols (if "Date" ∈ cols then sortRows rows0 else rows0)

/-- The non-empty-snapshot merge branch of `_upsert_data` (source lines
152–195): `set_index`, extension of the existing frame by the batch-only
columns (sorted, each filled with `""`), `update`, append of strictly
new keys, `reset_index` (key column moved to the front).  `none` models
the exception raised by `update` when the batch carries duplicate index
labels and the indexes are not identical. -/
def upsertMergeBranch (key : String) (ecols ncols1 : List String)
    (erows1 nrows3 : List Row) : Option WS :=
  let erows2 := astypeKey key erows1
  let eKeys := erows2.map (kOf key)
  let nKeys := nrows3.map (kOf key)
  let colsE := ecols.erase key
  let colsN := ncols1.erase key
  let newCols := newColsOf colsE colsN
  let erows3 := erows2.map (fun r => newCols.foldl (fun a c => Row.set a c "") r)
  let colsE2 := colsE ++ newCols
  if ¬ nKeys.Nodup ∧ eKeys ≠ nKeys then none
  else
    let updated := updateAll key colsN erows3 nrows3
    let toAppend := nrows3.filter (fun n => kOf key n ∉ eKeys)
    some (upsertFinish (key :: colsE2) (updated ++ toAppend))

/-- The model of `_upsert_data(worksheet, new_data, key_column)` (source
lines 105–217).  `now` is the wall-clock value `datetime.now().isoformat()`
read at line 134.  Returns the worksheet state after the call and the
outcome. -/
def upsertData (ws : WS) (newData : List Row) (key now : String) : WS × UpOutcome :=
  match newData with
  | [] => (ws, .ok)
  | _ =>
    let existing := getAllRecords ws
    let ecols := dfCols existing
    let ncols0 := dfCols newData
    -- Ensure Last_Fetched_At is present in new data (lines 132–134)
    let ncols1 := if "Last_Fetched_At" ∈ ncols0 then ncols0 else ncols0 ++ ["Last_Fetched_At"]
    let nrows1 := if "Last_Fetched_At" ∈ ncols0 then newData
      else newData.map (fun r => Row.set r "Last_Fetched_At" now)
    -- Normalize new data dates (lines 137–138)
    let nrows2 := if "Date" ∈ ncols1 then applyDateCol nrows1 else nrows1
    -- Normalize existing data dates (lines 141–142)
    let erows1 := if ¬ ecols = [] ∧ "Date" ∈ ecols then applyDateCol existing else existing
    -- df_new[key_column].astype(str) raises KeyError if the key column is absent
    if key ∉ ncols1 then (ws, .raised)
    else
      let nrows3 := astypeKey key nrows2
      if ecols = [] then
        -- df_existing.empty: df_final = df_new
        (upsertFinish ncols1 nrows3, .ok)
      else if key ∉ ecols then (ws, .raised)
      else
        match upsertMergeBranch key ecols ncols1 erows1 nrows3 with
        | none => (ws, .raised)
        | some ws2 => (ws2, .ok)

/-! ## `_incremental_merge_data` (KeyRangeReplace) -/

/-- Outcome of a `_incremental_merge_data` call: early return on an
empty batch, `AttributeError` (the method `_replace_all_data` called at
line 308 does not exist on the class), or the `NameError` raised by the
trailing dead code (`if not data:` at line 341, `data` undefined). -/
inductive IncOutcome
  | noop
  | nameError
  | attrError
deriving DecidableEq, Repr

/-- Observable backing-store operations of one call. -/
inductive IOOp
  | readAll
  | clearWrite
deriving DecidableEq, Repr

/-- `df_new["Date"]` as a column of optional values (`NaN` for rows
missing the key); `unique()` only feeds an `isin` test, so the list
itself is kept. -/
def rawDates (rows : List Row) : List (Option String) :=
  rows.map (fun r => Row.get r "Date")

/-- `~df_existing["Date"].isin(new_dates)`: keep rows whose `Date` value
is not among the batch's `Date` values (`NaN` matches `NaN`). -/
def keepRow (nd : List (Option String)) (r : Row) : Prop := Row.get r "Date" ∉ nd

instance (nd : List (Option String)) : DecidablePred (keepRow nd) := fun r =>
  inferInstanceAs (Decidable (_ ∉ _))

/-- The model of `_incremental_merge_data(worksheet, new_data)` (source
lines 279–366).  Returns the worksheet state after the call, the
outcome, and the backing-store operations performed. -/
def incrementalMergeData (ws : WS) (newData : List Row) : WS × IncOutcome × List IOOp :=
  match newData with
  | [] => (ws, .noop, [])
  | _ =>
    let existing := getAllRecords ws
    let ecols := dfCols existing
    let ncols := dfCols newData
    if ecols = [] then
      -- df_existing.empty: df_final = df_new, then sort, write, NameError
      let rows := if "Date" ∈ ncols then sortRows newData else newData
      (writeWS ncols rows, .nameError, [.readAll, .clearWrite])
    else if "Date" ∉ ncols then
      -- self._replace_all_data does not exist: AttributeError re-raised
      (ws, .attrError, [.readAll])
    else
      let nd := rawDates newData
      let fE := if "Date" ∈ ecols then existing.filter (fun r => decide (keepRow nd r)) else existing
      let cols := colUnion ecols ncols
      let rows0 := fE ++ newData
      let rows := if "Date" ∈ cols then sortRows rows0 else rows0
      (writeWS cols rows, .nameError, [.readAll, .clearWrite])

/-! ## Basic lemmas about rows -/

theorem Row.get_append (r s : Row) (c : String) :
    Row.get (r ++ s) c = ((Row.get r c).rec (Row.get s c) fun v => some v) := by
  induction r with
  | nil => simp [Row.get]
  | cons p r ih =>
    obtain ⟨c0, v0⟩ := p
    by_cases h0 : c0 = c <;> simp [Row.get, h0, ih]

theorem Row.get_map_set (r : Row) (c c' v : String) :
    Row.get (r.map (fun p => (p.1, if p.1 = c then v else p.2))) c'
      = if c' = c then (Row.get r c).map (fun _ => v) else Row.get r c' := by
  induction r with
  | nil => by_cases h : c' = c <;> simp [Row.get, h]
  | cons p r ih =>
    obtain ⟨c0, v0⟩ := p
    by_cases h0 : c0 = c
    · subst h0
      by_cases h : c' = c0
      · subst h
        simp [Row.get, ih]
      · simp [Row.get, h, Ne.symm h, ih]
    · by_cases h : c' = c
      · subst h
        simp [Row.get, h0, Ne.symm h0, ih]
      · by_cases h1 : c0 = c'
        · subst h1
          simp [Row.get, h0, h, ih]
        · simp [Row.get, h0, h, h1, ih]

theorem Row.get_set_self (r : Row) (c v : String) : Row.get (Row.set r c v) c = some v := by
  unfold Row.set
  split
  · rename_i hs
    rw [Row.get_map_set, if_pos rfl]
    obtain ⟨w, hw⟩ := Option.isSome_iff_exists.mp hs
    rw [hw]
    rfl
  · rw [Row.get_append]
    rename_i hs
    rw [Option.not_isSome_iff_eq_none.mp hs]
    simp [Row.get]

theorem Row.get_set_ne (r : Row) {c c' : String} (v : String) (h : c' ≠ c) :
    Row.get (Row.set r c v) c' = Row.get r c' := by
  unfold Row.set
  split
  · rw [Row.get_map_set, if_neg h]
  · rw [Row.get_append]
    cases hg : Row.get r c' with
    | none => simp [Row.get, Ne.symm h]
    | some w => rfl

/-! ## Lemmas about date parsing and `reformat_date` -/

theorem dig?_le {c : Char} {n : Nat} (h : dig? c = some n) : n ≤ 9 := by
  unfold dig? at h
  split at h
  · rename_i hc
    injection h with h
    omega
  · exact absurd h (by simp)

theorem dig?_digitChar10 (n : Nat) : dig? (digitChar10 n) = some (n % 10) := by
  have h : n % 10 < 10 := Nat.mod_lt _ (by omega)
  unfold digitChar10
  generalize hm : n % 10 = m at *
  interval_cases m <;> decide

theorem mkYMD?_some {y m d : Nat} {x : YMD} (h : mkYMD? y m d = some x) :
    x = ⟨y, m, d⟩ ∧ 1 ≤ m ∧ m ≤ 12 ∧ 1 ≤ d ∧ d ≤ 31 := by
  unfold mkYMD? at h
  split at h
  · rename_i hc
    injection h with h
    exact ⟨h.symm, hc.1, hc.2.1, hc.2.2.1, hc.2.2.2⟩
  · exact absurd h (by simp)

theorem isoParseL_bounds {l : List Char} {x : YMD} (h : isoParseL l = some x) :
    x.y ≤ 9999 ∧ 1 ≤ x.m ∧ x.m ≤ 12 ∧ 1 ≤ x.d ∧ x.d ≤ 31 := by
  unfold isoParseL at h
  split at h
  · split at h
    · split at h
      · rename_i ha hb hc hd he hf hg hh
        obtain ⟨hx, h1, h2, h3, h4⟩ := mkYMD?_some h
        subst hx
        have := dig?_le ha
        have := dig?_le hb
        have := dig?_le hc
        have := dig?_le hd
        refine ⟨by simp; omega, h1, h2, h3, h4⟩
      · exact absurd h (by simp)
    · exact absurd h (by simp)
  · exact absurd h (by simp)

theorem slashParseL_bounds {l : List Char} {x : YMD} (h : slashParseL l = some x) :
    x.y ≤ 9999 ∧ 1 ≤ x.m ∧ x.m ≤ 12 ∧ 1 ≤ x.d ∧ x.d ≤ 31 := by
  unfold slashParseL at h
  split at h
  · split at h
    · split at h
      · rename_i he hg ha hb hc hd
        obtain ⟨hx, h1, h2, h3, h4⟩ := mkYMD?_some h
        subst hx
        have := dig?_le ha
        have := dig?_le hb
        have := dig?_le hc
        have := dig?_le hd
        refine ⟨by simp; omega, h1, h2, h3, h4⟩
      · exact absurd h (by simp)
    · exact absurd h (by simp)
  · split at h
    · split at h
      · rename_i he hf hg hh ha hb hc hd
        obtain ⟨hx, h1, h2, h3, h4⟩ := mkYMD?_some h
        subst hx
        have := dig?_le ha
        have := dig?_le hb
        have := dig?_le hc
        have := dig?_le hd
        refine ⟨by simp; omega, h1, h2, h3, h4⟩
      · exact absurd h (by simp)
    · exact absurd h (by simp)
  · exact absurd h (by simp)

theorem parseDate_bounds {s : String} {x : YMD} (h : parseDate s = some x) :
    x.y ≤ 9999 ∧ 1 ≤ x.m ∧ x.m ≤ 12 ∧ 1 ≤ x.d ∧ x.d ≤ 31 := by
  unfold parseDate at h
  split at h
  · rename_i hiso
    injection h with h
    exact h ▸ isoParseL_bounds hiso
  · exact slashParseL_bounds h

theorem isoParse_fmtYMD {x : YMD} (hy : x.y ≤ 9999) (hm1 : 1 ≤ x.m) (hm2 : x.m ≤ 12)
    (hd1 : 1 ≤ x.d) (hd2 : x.d ≤ 31) : isoParse (fmtYMD x) = some x := by
  obtain ⟨y, m, d⟩ := x
  simp only at hy hm1 hm2 hd1 hd2
  show isoParseL [digitChar10 (y / 1000), digitChar10 (y / 100), digitChar10 (y / 10),
    digitChar10 y, '-', digitChar10 (m / 10), digitChar10 m, '-',
    digitChar10 (d / 10), digitChar10 d] = some ⟨y, m, d⟩
  simp only [isoParseL, dig?_digitChar10]
  rw [if_pos ⟨trivial, trivial⟩]
  have e1 : ((y / 1000 % 10 * 10 + y / 100 % 10) * 10 + y / 10 % 10) * 10 + y % 10 = y := by
    omega
  have e2 : m / 10 % 10 * 10 + m % 10 = m := by omega
  have e3 : d / 10 % 10 * 10 + d % 10 = d := by omega
  rw [e1, e2, e3, mkYMD?, if_pos ⟨hm1, hm2, hd1, hd2⟩]

theorem fmtYMD_ne_empty (x : YMD) : fmtYMD x ≠ "" := by
  intro h
  have : (fmtYMD x).data = ("" : String).data := by rw [h]
  simp [fmtYMD] at this

theorem parseDate_fmtYMD {s : String} {x : YMD} (h : parseDate s = some x) :
    parseDate (fmtYMD x) = some x := by
  obtain ⟨h1, h2, h3, h4, h5⟩ := parseDate_bounds h
  unfold parseDate
  rw [isoParse_fmtYMD h1 h2 h3 h4 h5]

/-- `reformat_date` is idempotent. -/
theorem reformat_date_idem (s : String) : reformat_date (reformat_date s) = reformat_date s := by
  unfold reformat_date
  by_cases h0 : s = ""
  · simp [h0]
  · rw [if_neg h0]
    cases hp : parseDate s with
    | none => rw [if_neg h0, hp]
    | some x =>
      rw [if_neg (fmtYMD_ne_empty x), parseDate_fmtYMD hp]

/-- C7 — `reformat_date` (the KeyNormalizer) is total (a Lean function),
deterministic (a function of its argument alone), idempotent, re-emits
parseable input in the fixed `YYYY-MM-DD` format, and returns unparseable
input unchanged instead of failing. -/
theorem C7_reformat_date_normalizer (s : String) :
    reformat_date (reformat_date s) = reformat_date s
    ∧ (parseDate s = none → reformat_date s = s)
    ∧ (∀ x, parseDate s = some x → reformat_date s = fmtYMD x) := by
  refine ⟨reformat_date_idem s, ?_, ?_⟩
  · intro hn
    unfold reformat_date
    by_cases h0 : s = ""
    · simp [h0]
    · rw [if_neg h0, hn]
  · intro x hx
    unfold reformat_date
    by_cases h0 : s = ""
    · rw [h0, show parseDate "" = none from rfl] at hx
      exact Option.noConfusion hx
    · rw [if_neg h0, hx]

/-- Witness for C7 at concrete inputs: a slash-format date and an
unparseable string. -/
theorem C7_reformat_date_normalizer_witness :
    reformat_date (reformat_date "01/14/2026") = reformat_date "01/14/2026"
    ∧ reformat_date "garbage" = "garbage" :=
  ⟨(C7_reformat_date_normalizer "01/14/2026").1,
   (C7_reformat_date_normalizer "garbage").2.1 (by decide)⟩

/-! ## Column-union lemmas -/

theorem mem_colUnion {x : String} {ks : List String} :
    ∀ {acc : List String}, x ∈ colUnion acc ks ↔ x ∈ acc ∨ x ∈ ks := by
  induction ks with
  | nil => simp [colUnion]
  | cons k ks ih =>
    intro acc
    show x ∈ colUnion (if k ∈ acc then acc else acc ++ [k]) ks ↔ _
    by_cases hk : k ∈ acc
    · rw [if_pos hk, ih]
      simp only [List.mem_cons]
      constructor
      · tauto
      · rintro (h | h | h) <;> [exact Or.inl h; exact Or.inl (h ▸ hk); exact Or.inr h]
    · rw [if_neg hk, ih]
      simp only [List.mem_append, List.mem_cons, List.mem_singleton]
      tauto

theorem colUnion_nodup {ks : List String} :
    ∀ {acc : List String}, acc.Nodup → (colUnion acc ks).Nodup := by
  induction ks with
  | nil => exact fun h => h
  | cons k ks ih =>
    intro acc hacc
    show (colUnion (if k ∈ acc then acc else acc ++ [k]) ks).Nodup
    by_cases hk : k ∈ acc
    · rw [if_pos hk]
      exact ih hacc
    · rw [if_neg hk]
      refine ih ?_
      simp [List.nodup_append, hacc, hk]

theorem mem_dfCols {x : String} {data : List Row} :
    x ∈ dfCols data ↔ ∃ r ∈ data, x ∈ r.map Prod.fst := by
  suffices h : ∀ (acc : List String),
      x ∈ data.foldl (fun a r => colUnion a (r.map Prod.fst)) acc ↔
        x ∈ acc ∨ ∃ r ∈ data, x ∈ r.map Prod.fst by
    rw [dfCols, h]
    simp
  induction data with
  | nil => simp
  | cons r data ih =>
    intro acc
    show x ∈ data.foldl _ (colUnion acc (r.map Prod.fst)) ↔ _
    rw [ih, mem_colUnion]
    simp only [List.mem_cons]
    constructor
    · rintro ((h | h) | h)
      · exact Or.inl h
      · exact Or.inr ⟨r, Or.inl rfl, h⟩
      · obtain ⟨r', hr', hx⟩ := h
        exact Or.inr ⟨r', Or.inr hr', hx⟩
    · rintro (h | ⟨r', hr', hx⟩)
      · exact Or.inl (Or.inl h)
      · rcases hr' with h' | h'
        · exact Or.inl (Or.inr (h' ▸ hx))
        · exact Or.inr ⟨r', h', hx⟩

theorem dfCols_nodup (data : List Row) : (dfCols data).Nodup := by
  suffices h : ∀ (acc : List String), acc.Nodup →
      (data.foldl (fun a r => colUnion a (r.map Prod.fst)) acc).Nodup from
    h [] List.nodup_nil
  induction data with
  | nil => exact fun _ h => h
  | cons r data ih =>
    intro acc hacc
    exact ih _ (colUnion_nodup hacc)

/-! ## Branch-unfolding equations for `incrementalMergeData` -/

theorem incrementalMergeData_cons (ws : WS) (b : Row) (bs : List Row) :
    incrementalMergeData ws (b :: bs) =
      (if dfCols (getAllRecords ws) = [] then
        (writeWS (dfCols (b :: bs))
          (if "Date" ∈ dfCols (b :: bs) then sortRows (b :: bs) else b :: bs),
         IncOutcome.nameError, [IOOp.readAll, IOOp.clearWrite])
      else if "Date" ∉ dfCols (b :: bs) then (ws, IncOutcome.attrError, [IOOp.readAll])
      else
        (writeWS (colUnion (dfCols (getAllRecords ws)) (dfCols (b :: bs)))
          (if "Date" ∈ colUnion (dfCols (getAllRecords ws)) (dfCols (b :: bs)) then
            sortRows ((if "Date" ∈ dfCols (getAllRecords ws) then
                (getAllRecords ws).filter (fun r => decide (keepRow (rawDates (b :: bs)) r))
              else getAllRecords ws) ++ (b :: bs))
          else ((if "Date" ∈ dfCols (getAllRecords ws) then
                (getAllRecords ws).filter (fun r => decide (keepRow (rawDates (b :: bs)) r))
              else getAllRecords ws) ++ (b :: bs))),
         IncOutcome.nameError, [IOOp.readAll, IOOp.clearWrite])) := rfl

/-! ## C8 — empty batch is a no-op for KeyRangeReplace -/

/-- C8 — an empty incoming batch makes `_incremental_merge_data` return
immediately: no backing-store read or write is performed, the worksheet
is unchanged (in particular no row is deleted and the table is never
wholly cleared). -/
theorem C8_empty_batch_noop (ws : WS) :
    incrementalMergeData ws [] = (ws, IncOutcome.noop, []) := rfl

/-! ## C10 — NameError raised after the write -/

/-- C10 — for every non-empty batch whose rows carry a `Date` column,
`_incremental_merge_data` reads the sheet, clears and rewrites it with
the merged result, and then the dead code after the `try`/`except`
(source lines 338–341, `if not data:` with `data` undefined) raises
`NameError`.  The write has already happened: every incoming row is
present in the written grid even though the call reports failure. -/
theorem C10_nameError_after_write (ws : WS) (B : List Row) (hB : B ≠ [])
    (hD : "Date" ∈ dfCols B) :
    (incrementalMergeData ws B).2.1 = IncOutcome.nameError
    ∧ (incrementalMergeData ws B).2.2 = [IOOp.readAll, IOOp.clearWrite]
    ∧ ∀ b ∈ B, matRow (incrementalMergeData ws B).1.header b ∈ (incrementalMergeData ws B).1.grid := by
  obtain ⟨b0, bs, rfl⟩ := List.exists_cons_of_ne_nil hB
  rw [incrementalMergeData_cons]
  by_cases he : dfCols (getAllRecords ws) = []
  · rw [if_pos he, if_pos hD]
    refine ⟨rfl, rfl, ?_⟩
    intro b hb
    exact List.mem_map_of_mem _ ((List.mem_insertionSort rowOrd).mpr hb)
  · have hD2 : "Date" ∈ colUnion (dfCols (getAllRecords ws)) (dfCols (b0 :: bs)) :=
      mem_colUnion.mpr (Or.inr hD)
    rw [if_neg he, if_neg (by simpa using hD), if_pos hD2]
    refine ⟨rfl, rfl, ?_⟩
    intro b hb
    refine List.mem_map_of_mem _ ((List.mem_insertionSort rowOrd).mpr ?_)
    exact List.mem_append_right _ hb

/-- Witness for C10: a one-row batch into a one-row sheet; the sheet is
rewritten (the incoming row is in the grid) and the call raises. -/
theorem C10_nameError_after_write_witness :
    (([[("Date", "2024-01-02"), ("Food", "y")]] : List Row) ≠ []
      ∧ "Date" ∈ dfCols [[("Date", "2024-01-02"), ("Food", "y")]])
    ∧ (incrementalMergeData ⟨["Date", "Food"], [["2024-01-01", "x"]]⟩
        [[("Date", "2024-01-02"), ("Food", "y")]]).2.1 = IncOutcome.nameError := by
  refine ⟨by decide, ?_⟩
  exact (C10_nameError_after_write ⟨["Date", "Food"], [["2024-01-01", "x"]]⟩
    [[("Date", "2024-01-02"), ("Food", "y")]] (by decide) (by decide)).1

/-! ## Order-theoretic facts about the sort step -/

theorem keyLE_refl (a : Option Nat) : keyLE a a = true := by
  cases a <;> simp [keyLE]

theorem keyLE_total (a b : Option Nat) : keyLE a b = true ∨ keyLE b a = true := by
  cases a <;> cases b <;> simp [keyLE] <;> omega

theorem keyLE_trans {a b c : Option Nat} (h1 : keyLE a b = true) (h2 : keyLE b c = true) :
    keyLE a c = true := by
  cases a <;> cases b <;> cases c <;> simp [keyLE] at * <;> omega

instance : IsTotal Row rowOrd := ⟨fun a b => keyLE_total (sortKey a) (sortKey b)⟩

instance : IsTrans Row rowOrd := ⟨fun _ _ _ h1 h2 => keyLE_trans h1 h2⟩

theorem rowOrd_of_ties {a b : Row} (h : sortKey a = sortKey b) : rowOrd a b := by
  show keyLE _ _ = true
  rw [h]
  exact keyLE_refl _

/-- Commuting two ordered insertions when the elements are strictly
ordered. -/
theorem orderedInsert_comm {x y : Row} (h : ¬ rowOrd x y) (t : List Row) :
    List.orderedInsert rowOrd y (List.orderedInsert rowOrd x t)
      = List.orderedInsert rowOrd x (List.orderedInsert rowOrd y t) := by
  have hyx : rowOrd y x := (IsTotal.total (r := rowOrd) y x).resolve_right h
  induction t with
  | nil => simp [List.orderedInsert, hyx, h]
  | cons c t ih =>
    by_cases hxc : rowOrd x c
    · have hyc : rowOrd y c := IsTrans.trans _ _ _ hyx hxc
      simp [List.orderedInsert, hxc, hyx, hyc, h]
    · by_cases hyc : rowOrd y c
      · simp [List.orderedInsert, hxc, hyc, h]
      · simp [List.orderedInsert, hxc, hyc, ih]

/-- Folding ordered insertions over a list with one more insertion:
the extra insertion commutes out. -/
theorem foldr_orderedInsert_insert (x : Row) :
    ∀ (s acc : List Row),
      (List.orderedInsert rowOrd x s).foldr (List.orderedInsert rowOrd) acc
        = List.orderedInsert rowOrd x (s.foldr (List.orderedInsert rowOrd) acc) := by
  intro s
  induction s with
  | nil => intro acc; rfl
  | cons b s ih =>
    intro acc
    by_cases hxb : rowOrd x b
    · rw [List.orderedInsert, if_pos hxb]
      rfl
    · rw [List.orderedInsert, if_neg hxb]
      show List.orderedInsert rowOrd b ((List.orderedInsert rowOrd x s).foldr _ acc) = _
      rw [ih acc, orderedInsert_comm hxb]
      rfl

theorem foldr_orderedInsert_sortRows (l : List Row) :
    ∀ acc, (sortRows l).foldr (List.orderedInsert rowOrd) acc
      = l.foldr (List.orderedInsert rowOrd) acc := by
  induction l with
  | nil => intro acc; rfl
  | cons x l ih =>
    intro acc
    show (List.orderedInsert rowOrd x (sortRows l)).foldr _ acc = _
    rw [foldr_orderedInsert_insert, ih acc]
    rfl

theorem sortRows_append (l m : List Row) :
    sortRows (l ++ m) = l.foldr (List.orderedInsert rowOrd) (sortRows m) := by
  induction l with
  | nil => rfl
  | cons x l ih =>
    show List.orderedInsert rowOrd x (sortRows (l ++ m)) = _
    rw [ih]
    rfl

/-- Pre-sorting the left part of a concatenation does not change the
sorted result (the sort is stable and insertion-based). -/
theorem sortRows_sortRows_append (l m : List Row) :
    sortRows (sortRows l ++ m) = sortRows (l ++ m) := by
  rw [sortRows_append, sortRows_append, foldr_orderedInsert_sortRows]

theorem orderedInsert_of_forall {x : Row} {l : List Row} (h : ∀ y ∈ l, rowOrd x y) :
    List.orderedInsert rowOrd x l = x :: l := by
  cases l with
  | nil => rfl
  | cons c t => exact List.orderedInsert_of_le rowOrd t (h c (List.mem_cons_self c t))

/-- Filtering after an ordered insertion into a sorted list. -/
theorem filter_orderedInsert (p : Row → Bool) {s : List Row} (hs : List.Sorted rowOrd s)
    (x : Row) :
    (List.orderedInsert rowOrd x s).filter p
      = if p x then List.orderedInsert rowOrd x (s.filter p) else s.filter p := by
  induction s with
  | nil =>
    by_cases hpx : p x <;> simp [List.orderedInsert, List.filter, hpx]
  | cons b s ih =>
    have hb := List.rel_of_sorted_cons hs
    have hs' : List.Sorted rowOrd s := hs.of_cons
    by_cases hxb : rowOrd x b
    · rw [List.orderedInsert, if_pos hxb]
      by_cases hpx : p x
      · rw [if_pos hpx, orderedInsert_of_forall]
        · simp [List.filter_cons, hpx]
        · intro y hy
          rw [List.mem_filter] at hy
          rcases List.mem_cons.mp hy.1 with h' | h'
          · exact h' ▸ hxb
          · exact IsTrans.trans _ _ _ hxb (hb y h')
      · rw [if_neg hpx]
        simp [List.filter_cons, hpx]
    · rw [List.orderedInsert, if_neg hxb]
      by_cases hpb : p b
      · simp only [List.filter_cons, hpb, if_pos, cond_true]
        rw [ih hs']
        by_cases hpx : p x
        · rw [if_pos hpx, if_pos hpx, List.orderedInsert, if_neg hxb]
        · rw [if_neg hpx, if_neg hpx]
      · simp only [List.filter_cons, hpb, cond_false]
        exact ih hs'

/-- The sort commutes with any row filter (a consequence of stability). -/
theorem filter_sortRows (p : Row → Bool) (l : List Row) :
    (sortRows l).filter p = sortRows (l.filter p) := by
  induction l with
  | nil => rfl
  | cons x l ih =>
    simp only [sortRows] at ih ⊢
    show (List.orderedInsert rowOrd x (List.insertionSort rowOrd l)).filter p = _
    rw [filter_orderedInsert p (List.sorted_insertionSort rowOrd l), ih, List.filter_cons]
    cases hpx : p x
    · rfl
    · rfl

/-- Sorting a list whose rows all tie (equal sort keys) is the identity:
ties keep their original relative order. -/
theorem sortRows_of_ties {l : List Row} (h : ∀ a ∈ l, ∀ b ∈ l, rowOrd a b) :
    sortRows l = l := by
  induction l with
  | nil => rfl
  | cons x l ih =>
    show List.orderedInsert rowOrd x (sortRows l) = x :: l
    rw [ih fun a ha b hb => h a (List.mem_cons_of_mem x ha) b (List.mem_cons_of_mem x hb),
      orderedInsert_of_forall]
    intro y hy
    exact h x (List.mem_cons_self x l) y (List.mem_cons_of_mem x hy)

/-- Mapping a key-preserving row transformation commutes with the sort. -/
theorem map_sortRows {f : Row → Row} {l : List Row}
    (hf : ∀ r ∈ l, sortKey (f r) = sortKey r) :
    (sortRows l).map f = sortRows (l.map f) := by
  refine List.map_insertionSort rowOrd rowOrd f l ?_
  intro a ha b hb
  show _ ↔ keyLE (sortKey (f a)) (sortKey (f b)) = true
  rw [hf a ha, hf b hb]
  exact Iff.rfl

/-! ## Write-back / read-back infrastructure -/

theorem Row.mem_fst_of_get {r : Row} {c : String} {v : String} (h : Row.get r c = some v) :
    c ∈ r.map Prod.fst := by
  induction r with
  | nil => exact absurd h (by simp [Row.get])
  | cons p r ih =>
    obtain ⟨c0, v0⟩ := p
    by_cases h0 : c0 = c
    · simp [h0]
    · rw [Row.get, if_neg h0] at h
      simp [ih h]

theorem Row.get_eq_none_of_not_mem {r : Row} {c : String} (h : c ∉ r.map Prod.fst) :
    Row.get r c = none := by
  cases hg : Row.get r c with
  | none => rfl
  | some v => exact absurd (Row.mem_fst_of_get hg) h

theorem fst_rbRow (cols : List String) (r : Row) : (rbRow cols r).map Prod.fst = cols := by
  unfold rbRow matRow
  rw [List.map_fst_zip]
  simp

theorem get_rbRow (cols : List String) (r : Row) (c : String) :
    Row.get (rbRow cols r) c = if c ∈ cols then some (Row.getD r c) else none := by
  induction cols with
  | nil => simp [rbRow, matRow, Row.get]
  | cons c0 cols ih =>
    show Row.get ((c0, Row.getD r c0) :: rbRow cols r) c = _
    by_cases h0 : c0 = c
    · subst h0
      simp [Row.get]
    · rw [Row.get, if_neg h0, ih]
      by_cases hc : c ∈ cols
      · rw [if_pos hc, if_pos (List.mem_cons_of_mem c0 hc)]
      · have hcc : c ∉ c0 :: cols := by
          simp only [List.mem_cons, not_or]
          exact ⟨fun h => h0 h.symm, hc⟩
        rw [if_neg hc, if_neg hcc]

theorem getD_rbRow_of_mem {cols : List String} {c : String} (hc : c ∈ cols) (r : Row) :
    Row.getD (rbRow cols r) c = Row.getD r c := by
  unfold Row.getD
  rw [get_rbRow, if_pos hc]
  rfl

theorem matRow_rbRow (cols : List String) (r : Row) :
    matRow cols (rbRow cols r) = matRow cols r := by
  unfold matRow
  exact List.map_congr_left fun c hc => getD_rbRow_of_mem hc r

theorem rbRow_rbRow (cols : List String) (r : Row) :
    rbRow cols (rbRow cols r) = rbRow cols r := by
  show cols.zip (matRow cols (rbRow cols r)) = _
  rw [matRow_rbRow]
  rfl

theorem getAllRecords_writeWS (cols : List String) (rows : List Row) :
    getAllRecords (writeWS cols rows) = rows.map (rbRow cols) := by
  show (rows.map (matRow cols)).map (fun vs => cols.zip vs) = _
  rw [List.map_map]
  rfl

theorem sortKey_rbRow {cols : List String} (hD : "Date" ∈ cols) (r : Row) :
    sortKey (rbRow cols r) = sortKey r := by
  unfold sortKey
  rw [get_rbRow, if_pos hD]
  cases hg : Row.get r "Date" with
  | none => simp [Row.getD, hg, isoParse, isoParseL]
  | some v => simp [Row.getD, hg]

theorem colUnion_of_subset {acc ks : List String} (h : ∀ k ∈ ks, k ∈ acc) :
    colUnion acc ks = acc := by
  induction ks with
  | nil => rfl
  | cons k ks ih =>
    show colUnion (if k ∈ acc then acc else acc ++ [k]) ks = acc
    rw [if_pos (h k (List.mem_cons_self k ks))]
    exact ih fun k' hk' => h k' (List.mem_cons_of_mem k hk')

theorem colUnion_eq_append {ks : List String} :
    ∀ {acc : List String}, (acc ++ ks).Nodup → colUnion acc ks = acc ++ ks := by
  induction ks with
  | nil => intro acc _; simp [colUnion]
  | cons k ks ih =>
    intro acc h
    show colUnion (if k ∈ acc then acc else acc ++ [k]) ks = _
    have hk : k ∉ acc := by
      intro hmem
      exact (List.disjoint_of_nodup_append h) hmem (List.mem_cons_self k ks)
    rw [if_neg hk]
    have h2 : ((acc ++ [k]) ++ ks).Nodup := by simpa using h
    rw [ih h2]
    simp

theorem dfCols_const {cols : List String} {R : List Row} (hcols : cols.Nodup)
    (hR : ∀ r ∈ R, r.map Prod.fst = cols) (hne : R ≠ []) : dfCols R = cols := by
  obtain ⟨r0, R', rfl⟩ := List.exists_cons_of_ne_nil hne
  show (R'.foldl (fun a r => colUnion a (r.map Prod.fst)) (colUnion [] (r0.map Prod.fst))) = cols
  rw [hR r0 (List.mem_cons_self r0 R'), colUnion_eq_append (by simpa using hcols)]
  have key : ∀ (R'' : List Row), (∀ r ∈ R'', r.map Prod.fst = cols) →
      R''.foldl (fun a r => colUnion a (r.map Prod.fst)) ([] ++ cols) = [] ++ cols := by
    intro R''
    induction R'' with
    | nil => intro _; rfl
    | cons r R'' ih =>
      intro hmem
      show R''.foldl _ (colUnion ([] ++ cols) (r.map Prod.fst)) = _
      rw [hmem r (List.mem_cons_self r R''),
        colUnion_of_subset fun k hk => by simpa using hk]
      exact ih fun r' hr' => hmem r' (List.mem_cons_of_mem r hr')
  exact key R' fun r hr => hR r (List.mem_cons_of_mem r0 hr)

theorem dfCols_getAllRecords_writeWS {cols : List String} {rows : List Row}
    (hcols : cols.Nodup) (hne : rows ≠ []) :
    dfCols (getAllRecords (writeWS cols rows)) = cols := by
  rw [getAllRecords_writeWS]
  refine dfCols_const hcols (fun r hr => ?_) (by simpa using hne)
  obtain ⟨r', _, rfl⟩ := List.mem_map.mp hr
  exact fst_rbRow cols r'

/-- Replacing the left part of a concatenation by its read-back image
does not change the materialized sorted grid. -/
theorem map_matRow_sortRows_rb_append {cols : List String} (hD : "Date" ∈ cols)
    (l m : List Row) :
    (sortRows ((l.map (rbRow cols)) ++ m)).map (matRow cols)
      = (sortRows (l ++ m)).map (matRow cols) := by
  have hmat : ∀ (X : List Row), (sortRows X).map (matRow cols)
      = (sortRows (X.map (rbRow cols))).map (matRow cols) := by
    intro X
    rw [← map_sortRows (fun r _ => sortKey_rbRow hD r), List.map_map]
    exact List.map_congr_left fun r _ => (matRow_rbRow cols r).symm
  rw [hmat (l.map (rbRow cols) ++ m), hmat (l ++ m), List.map_append, List.map_append,
    List.map_map]
  have : (l.map (rbRow cols ∘ rbRow cols)) = l.map (rbRow cols) :=
    List.map_congr_left fun r _ => rbRow_rbRow cols r
  rw [this]

/-- Within the executable representative model (stable `sortRows`), a
second `_incremental_merge_data` pass with the same batch rewrites the
worksheet identically, provided every batch row carries a present,
nonempty `Date` value. -/
theorem incMerge_written_idempotent_model (ws : WS) (B : List Row)
    (H : ∀ b ∈ B, ∃ v, Row.get b "Date" = some v ∧ v ≠ "") :
    (incrementalMergeData (incrementalMergeData ws B).1 B).1
      = (incrementalMergeData ws B).1 := by
  cases B with
  | nil => rfl
  | cons b0 bs =>
    obtain ⟨v0, hv0, hv0ne⟩ := H b0 (List.mem_cons_self b0 bs)
    have hD : "Date" ∈ dfCols (b0 :: bs) :=
      mem_dfCols.mpr ⟨b0, List.mem_cons_self b0 bs, Row.mem_fst_of_get hv0⟩
    -- `some ""` never occurs among the batch dates
    have hne_empty : (some "" : Option String) ∉ rawDates (b0 :: bs) := by
      intro hmem
      obtain ⟨r, hr, hEq⟩ := List.mem_map.mp hmem
      obtain ⟨v, hv, hvne⟩ := H r hr
      rw [hv] at hEq
      injection hEq with hEq
      exact hvne hEq
    -- every batch row is dropped by the keep filter of the second pass
    have hBfalse : ∀ (cols : List String), "Date" ∈ cols → ∀ r ∈ b0 :: bs,
        ¬ (decide (keepRow (rawDates (b0 :: bs)) (rbRow cols r)) = true) := by
      intro cols hcols r hr
      obtain ⟨v, hv, _⟩ := H r hr
      rw [decide_eq_true_iff]
      unfold keepRow
      rw [get_rbRow, if_pos hcols]
      intro hcon
      refine hcon ?_
      have hgd : Row.getD r "Date" = v := by rw [Row.getD, hv]; rfl
      rw [hgd]
      exact List.mem_map.mpr ⟨r, hr, hv⟩
    by_cases he : dfCols (getAllRecords ws) = []
    · -- first pass wrote the sorted batch into the empty sheet
      have h1 : incrementalMergeData ws (b0 :: bs)
          = (writeWS (dfCols (b0 :: bs)) (sortRows (b0 :: bs)),
             IncOutcome.nameError, [IOOp.readAll, IOOp.clearWrite]) := by
        rw [incrementalMergeData_cons, if_pos he, if_pos hD]
      rw [h1]
      show (incrementalMergeData
        (writeWS (dfCols (b0 :: bs)) (sortRows (b0 :: bs))) (b0 :: bs)).1 = _
      have hRne : sortRows (b0 :: bs) ≠ [] := by
        intro hcon
        have hlen := List.length_insertionSort rowOrd (b0 :: bs)
        rw [show List.insertionSort rowOrd (b0 :: bs) = sortRows (b0 :: bs) from rfl,
          hcon] at hlen
        simp at hlen
      have hec2 : dfCols (getAllRecords
          (writeWS (dfCols (b0 :: bs)) (sortRows (b0 :: bs)))) = dfCols (b0 :: bs) :=
        dfCols_getAllRecords_writeWS (dfCols_nodup _) hRne
      rw [incrementalMergeData_cons, hec2, getAllRecords_writeWS,
        if_neg (List.ne_nil_of_mem hD), if_neg (not_not_intro hD), if_pos hD]
      have hfilter : ((sortRows (b0 :: bs)).map (rbRow (dfCols (b0 :: bs)))).filter
          (fun r => decide (keepRow (rawDates (b0 :: bs)) r)) = [] := by
        rw [List.filter_map]
        have hnil : (sortRows (b0 :: bs)).filter
            ((fun r => decide (keepRow (rawDates (b0 :: bs)) r)) ∘ rbRow (dfCols (b0 :: bs)))
            = [] :=
          List.filter_eq_nil_iff.mpr fun r hr =>
            hBfalse _ hD r ((List.mem_insertionSort rowOrd).mp hr)
        rw [hnil]
        rfl
      rw [hfilter, colUnion_of_subset (fun k hk => hk), if_pos hD, List.nil_append]
    · -- first pass merged into a non-empty sheet
      have hcolsD : "Date" ∈ colUnion (dfCols (getAllRecords ws)) (dfCols (b0 :: bs)) :=
        mem_colUnion.mpr (Or.inr hD)
      have h1 : incrementalMergeData ws (b0 :: bs)
          = (writeWS (colUnion (dfCols (getAllRecords ws)) (dfCols (b0 :: bs)))
              (sortRows ((if "Date" ∈ dfCols (getAllRecords ws) then
                  (getAllRecords ws).filter
                    (fun r => decide (keepRow (rawDates (b0 :: bs)) r))
                else getAllRecords ws) ++ (b0 :: bs))),
             IncOutcome.nameError, [IOOp.readAll, IOOp.clearWrite]) := by
        rw [incrementalMergeData_cons, if_neg he, if_neg (not_not_intro hD), if_pos hcolsD]
      -- name the filtered existing rows and the first-pass column list
      rw [h1]
      generalize hFE : (if "Date" ∈ dfCols (getAllRecords ws) then
          (getAllRecords ws).filter (fun r => decide (keepRow (rawDates (b0 :: bs)) r))
        else getAllRecords ws) = FE at *
      generalize hC1 : colUnion (dfCols (getAllRecords ws)) (dfCols (b0 :: bs)) = cols₁ at *
      show (incrementalMergeData (writeWS cols₁ (sortRows (FE ++ (b0 :: bs)))) (b0 :: bs)).1
        = writeWS cols₁ (sortRows (FE ++ (b0 :: bs)))
      -- every filtered existing row is kept again on the second pass
      have hFEtrue : ∀ r ∈ FE,
          decide (keepRow (rawDates (b0 :: bs)) (rbRow cols₁ r)) = true := by
        intro r hr
        rw [decide_eq_true_iff]
        unfold keepRow
        rw [get_rbRow, if_pos hcolsD]
        by_cases hDe : "Date" ∈ dfCols (getAllRecords ws)
        · rw [if_pos hDe] at hFE
          rw [← hFE] at hr
          have hkeep := List.of_mem_filter hr
          rw [decide_eq_true_iff] at hkeep
          unfold keepRow at hkeep
          cases hg : Row.get r "Date" with
          | none =>
            rw [Row.getD, hg]
            exact hne_empty
          | some v =>
            rw [Row.getD, hg]
            rw [hg] at hkeep
            exact hkeep
        · rw [if_neg hDe] at hFE
          rw [← hFE] at hr
          have hnone : Row.get r "Date" = none := by
            refine Row.get_eq_none_of_not_mem fun hmem => hDe ?_
            exact mem_dfCols.mpr ⟨r, hr, hmem⟩
          rw [Row.getD, hnone]
          exact hne_empty
      have hR1ne : sortRows (FE ++ (b0 :: bs)) ≠ [] := by
        intro hcon
        have hlen := List.length_insertionSort rowOrd (FE ++ (b0 :: bs))
        rw [show List.insertionSort rowOrd (FE ++ (b0 :: bs))
            = sortRows (FE ++ (b0 :: bs)) from rfl, hcon] at hlen
        simp at hlen
        omega
      have hc1nodup : cols₁.Nodup := by
        rw [← hC1]
        exact colUnion_nodup (dfCols_nodup _)
      have hec2 : dfCols (getAllRecords
          (writeWS cols₁ (sortRows (FE ++ (b0 :: bs))))) = cols₁ :=
        dfCols_getAllRecords_writeWS hc1nodup hR1ne
      rw [incrementalMergeData_cons, hec2, getAllRecords_writeWS,
        if_neg (List.ne_nil_of_mem hcolsD), if_neg (not_not_intro hD), if_pos hcolsD,
        colUnion_of_subset (fun k hk => hC1 ▸ mem_colUnion.mpr (Or.inr hk)), if_pos hcolsD]
      -- compute the second-pass filter: the batch rows drop, FE survives
      have hfilter : ((sortRows (FE ++ (b0 :: bs))).map (rbRow cols₁)).filter
          (fun r => decide (keepRow (rawDates (b0 :: bs)) r))
          = (sortRows FE).map (rbRow cols₁) := by
        rw [List.filter_map]
        have hfil2 : (sortRows (FE ++ (b0 :: bs))).filter
            (fun r => decide (keepRow (rawDates (b0 :: bs)) (rbRow cols₁ r)))
            = sortRows FE := by
          rw [filter_sortRows, List.filter_append,
            List.filter_eq_nil_iff.mpr (hBfalse cols₁ hcolsD),
            List.filter_eq_self.mpr hFEtrue, List.append_nil]
        rw [show ((fun r => decide (keepRow (rawDates (b0 :: bs)) r)) ∘ rbRow cols₁)
            = fun r => decide (keepRow (rawDates (b0 :: bs)) (rbRow cols₁ r)) from rfl,
          hfil2]
      rw [hfilter]
      -- the rewritten grid coincides with the first-pass grid
      show writeWS cols₁ (sortRows ((sortRows FE).map (rbRow cols₁) ++ (b0 :: bs)))
        = writeWS cols₁ (sortRows (FE ++ (b0 :: bs)))
      unfold writeWS
      have hgrid : (sortRows ((sortRows FE).map (rbRow cols₁) ++ (b0 :: bs))).map
          (matRow cols₁) = (sortRows (FE ++ (b0 :: bs))).map (matRow cols₁) := by
        rw [map_sortRows (fun r _ => sortKey_rbRow hcolsD r), sortRows_sortRows_append]
        exact map_matRow_sortRows_rb_append hcolsD FE (b0 :: bs)
      rw [hgrid]

/-- C1 (amended) — under KeyRangeReplace, reconciliation of the written
table is idempotent up to the order of tied rows, provided every batch
row carries a present, nonempty `Date` value: repeating
`_incremental_merge_data` with the same batch writes the same header and
a permutation of the same grid rows.  The statement is insensitive to
the order of rows with equal sort keys, which the source's
`sort_values` (default non-stable kind) leaves unspecified.  (The
ColumnMerge half of the original claim is refuted by
`C1_counterexample`.) -/
theorem C1_amended_KeyRangeReplace_idempotent (ws : WS) (B : List Row)
    (H : ∀ b ∈ B, ∃ v, Row.get b "Date" = some v ∧ v ≠ "") :
    (incrementalMergeData (incrementalMergeData ws B).1 B).1.header
      = (incrementalMergeData ws B).1.header
    ∧ List.Perm (incrementalMergeData (incrementalMergeData ws B).1 B).1.grid
        (incrementalMergeData ws B).1.grid := by
  rw [incMerge_written_idempotent_model ws B H]
  exact ⟨rfl, List.Perm.refl _⟩

/-- Witness for C1 (amended) at a concrete sheet and batch. -/
theorem C1_amended_KeyRangeReplace_idempotent_witness :
    (∀ b ∈ [[("Date", "2024-01-01"), ("Food", "y")], [("Date", "2024-01-02"), ("Food", "z")]],
      ∃ v, Row.get b "Date" = some v ∧ v ≠ "")
    ∧ ((incrementalMergeData
        (incrementalMergeData ⟨["Date", "Food"], [["2024-01-03", "a"], ["2024-01-01", "x"]]⟩
          [[("Date", "2024-01-01"), ("Food", "y")], [("Date", "2024-01-02"), ("Food", "z")]]).1
        [[("Date", "2024-01-01"), ("Food", "y")], [("Date", "2024-01-02"), ("Food", "z")]]).1.header
      = (incrementalMergeData ⟨["Date", "Food"], [["2024-01-03", "a"], ["2024-01-01", "x"]]⟩
          [[("Date", "2024-01-01"), ("Food", "y")], [("Date", "2024-01-02"), ("Food", "z")]]).1.header
    ∧ List.Perm (incrementalMergeData
        (incrementalMergeData ⟨["Date", "Food"], [["2024-01-03", "a"], ["2024-01-01", "x"]]⟩
          [[("Date", "2024-01-01"), ("Food", "y")], [("Date", "2024-01-02"), ("Food", "z")]]).1
        [[("Date", "2024-01-01"), ("Food", "y")], [("Date", "2024-01-02"), ("Food", "z")]]).1.grid
        (incrementalMergeData ⟨["Date", "Food"], [["2024-01-03", "a"], ["2024-01-01", "x"]]⟩
          [[("Date", "2024-01-01"), ("Food", "y")], [("Date", "2024-01-02"), ("Food", "z")]]).1.grid) :=
  ⟨by decide, C1_amended_KeyRangeReplace_idempotent _ _ (by decide)⟩

/-! ## Counterexamples -/

/-- C1 counterexample — ColumnMerge reconciliation is not idempotent: on
an empty sheet, the first pass writes the batch's own column order
(`CTL`, `Date`, `Last_Fetched_At`); the repeat pass runs the merge path,
whose `reset_index` moves the key column to the front, so the written
table changes even with the same batch and the same clock value. -/
theorem C1_counterexample :
    (upsertData (upsertData ⟨[], []⟩ [[("CTL", "50"), ("Date", "2024-01-01")]] "Date" "T0").1
      [[("CTL", "50"), ("Date", "2024-01-01")]] "Date" "T0").1
    ≠ (upsertData ⟨[], []⟩ [[("CTL", "50"), ("Date", "2024-01-01")]] "Date" "T0").1 := by
  decide

/-- C2 counterexample — the claim fails for the `Last_Fetched_At`
column: the batch carries no value for `(2024-01-01, Last_Fetched_At)`,
yet the merge overwrites that cell with the call's clock value
(`df_new["Last_Fetched_At"]` is injected for every incoming row). -/
theorem C2_counterexample :
    (upsertData ⟨["Date", "Last_Fetched_At"], [["2024-01-01", "old"]]⟩
      [[("Date", "2024-01-01"), ("HRV", "55")]] "Date" "2026-02-03T10:00").1.grid
    = [["2024-01-01", "2026-02-03T10:00", "55"]] := by decide

/-- C3 counterexample — `_incremental_merge_data` compares raw `Date`
strings: the existing row keyed `01/14/2026` normalizes to `2026-01-14`,
which occurs in the batch, yet the row survives the merge (no
KeyNormalizer is applied on load in this code path). -/
theorem C3_counterexample :
    reformat_date "01/14/2026" = "2026-01-14"
    ∧ (incrementalMergeData ⟨["Date", "Food"], [["01/14/2026", "old"]]⟩
        [[("Date", "2026-01-14"), ("Food", "new")]]).1.grid
      = [["2026-01-14", "new"], ["01/14/2026", "old"]] := by decide

/-- C4 counterexample — duplicate keys in one batch are not resolved
last-write-wins: into an empty sheet both duplicate rows are written
(two rows keyed `2024-01-01`, not one), and into a non-empty sheet the
underlying `update` raises, aborting the batch with no write. -/
theorem C4_counterexample :
    (upsertData ⟨[], []⟩
      [[("Date", "2024-01-01"), ("CTL", "50")], [("Date", "2024-01-01"), ("CTL", "60")]]
      "Date" "T0").1.grid
    = [["2024-01-01", "50", "T0"], ["2024-01-01", "60", "T0"]]
    ∧ (upsertData ⟨["Date", "CTL"], [["2024-01-01", "10"]]⟩
      [[("Date", "2024-01-01"), ("CTL", "50")], [("Date", "2024-01-01"), ("CTL", "60")]]
      "Date" "T0")
    = (⟨["Date", "CTL"], [["2024-01-01", "10"]]⟩, UpOutcome.raised) := by decide

/-- C5 counterexample — an incoming row missing the key column is not
skipped and no skip count exists (`_upsert_data` returns `None`): the
keyless row is written with the literal key `"nan"` produced by
`astype(str)` on `NaN`. -/
theorem C5_counterexample :
    (upsertData ⟨[], []⟩ [[("Date", "2024-01-01"), ("CTL", "50")], [("CTL", "60")]]
      "Date" "T0").1.grid
    = [["2024-01-01", "50", "T0"], ["nan", "60", "T0"]] := by decide

/-! ## C3 (amended) — replacement completeness over raw keys -/

/-- C3 (amended) — `_incremental_merge_data` deletes by raw string
equality of the `Date` cell, with no normalization on load: after a
merge, every written grid row materializes either a batch row or an
existing row whose raw `Date` value is not among the batch's raw `Date`
values (the deletion only applies when the existing sheet has a `Date`
column).  Rows whose keys merely normalize to a batch key survive, as
`C3_counterexample` shows. -/
theorem C3_amended_raw_replacement (ws : WS) (B : List Row) (hB : B ≠ [])
    (hD : "Date" ∈ dfCols B) :
    ∀ gr ∈ (incrementalMergeData ws B).1.grid,
      ∃ r, gr = matRow (incrementalMergeData ws B).1.header r
        ∧ (r ∈ B ∨ (r ∈ getAllRecords ws
            ∧ ("Date" ∈ dfCols (getAllRecords ws) → Row.get r "Date" ∉ rawDates B))) := by
  obtain ⟨b0, bs, rfl⟩ := List.exists_cons_of_ne_nil hB
  rw [incrementalMergeData_cons]
  by_cases he : dfCols (getAllRecords ws) = []
  · rw [if_pos he, if_pos hD]
    intro gr hgr
    obtain ⟨r, hr, hmat⟩ := List.mem_map.mp hgr
    exact ⟨r, hmat.symm, Or.inl ((List.mem_insertionSort rowOrd).mp hr)⟩
  · rw [if_neg he, if_neg (not_not_intro hD), if_pos (mem_colUnion.mpr (Or.inr hD))]
    intro gr hgr
    obtain ⟨r, hr, hmat⟩ := List.mem_map.mp hgr
    refine ⟨r, hmat.symm, ?_⟩
    have hr2 := (List.mem_insertionSort rowOrd).mp hr
    rcases List.mem_append.mp hr2 with hfe | hb
    · right
      by_cases hDe : "Date" ∈ dfCols (getAllRecords ws)
      · rw [if_pos hDe] at hfe
        have h1 := List.mem_of_mem_filter hfe
        have h2 := List.of_mem_filter hfe
        rw [decide_eq_true_iff] at h2
        exact ⟨h1, fun _ => h2⟩
      · rw [if_neg hDe] at hfe
        exact ⟨hfe, fun hcon => absurd hcon hDe⟩
    · exact Or.inl hb

/-- Witness for C3 (amended): every written row of a concrete merge is
accounted for. -/
theorem C3_amended_raw_replacement_witness :
    (([[("Date", "2026-01-14"), ("Food", "new")]] : List Row) ≠ []
      ∧ "Date" ∈ dfCols [[("Date", "2026-01-14"), ("Food", "new")]])
    ∧ ∀ gr ∈ (incrementalMergeData ⟨["Date", "Food"], [["01/14/2026", "old"]]⟩
        [[("Date", "2026-01-14"), ("Food", "new")]]).1.grid,
      ∃ r, gr = matRow (incrementalMergeData ⟨["Date", "Food"], [["01/14/2026", "old"]]⟩
          [[("Date", "2026-01-14"), ("Food", "new")]]).1.header r
        ∧ (r ∈ ([[("Date", "2026-01-14"), ("Food", "new")]] : List Row)
          ∨ (r ∈ getAllRecords ⟨["Date", "Food"], [["01/14/2026", "old"]]⟩
            ∧ ("Date" ∈ dfCols (getAllRecords ⟨["Date", "Food"], [["01/14/2026", "old"]]⟩) →
              Row.get r "Date" ∉ rawDates [[("Date", "2026-01-14"), ("Food", "new")]]))) :=
  ⟨by decide, C3_amended_raw_replacement _ _ (by decide) (by decide)⟩

/-! ## The normalized-key pipeline of `_upsert_data` -/

theorem length_applyDateCol (rows : List Row) : (applyDateCol rows).length = rows.length := by
  simp [applyDateCol]

theorem length_astypeKey (key : String) (rows : List Row) :
    (astypeKey key rows).length = rows.length := by
  simp [astypeKey]

/-- Normalizing the `Date` column and then string-casting the key gives
exactly the normalized keys. -/
theorem map_kOf_astype_applyDate (rows : List Row) :
    (astypeKey "Date" (applyDateCol rows)).map (kOf "Date") = rows.map normKey := by
  unfold astypeKey applyDateCol
  rw [List.map_map, List.map_map]
  refine List.map_congr_left fun r _ => ?_
  show kOf "Date" (if (Row.get (match Row.get r "Date" with
      | some v => Row.set r "Date" (reformat_date v)
      | none => Row.set r "Date" "nan") "Date").isSome then _ else _) = normKey r
  cases hg : Row.get r "Date" with
  | some v =>
    simp only [hg]
    rw [if_pos (by rw [Row.get_set_self]; rfl)]
    unfold kOf Row.getD normKey
    rw [Row.get_set_self, hg]
    rfl
  | none =>
    simp only [hg]
    rw [if_pos (by rw [Row.get_set_self]; rfl)]
    unfold kOf Row.getD normKey
    rw [Row.get_set_self, hg]
    rfl

/-- Stamping `Last_Fetched_At` does not affect the normalized keys. -/
theorem map_kOf_pipeline_stamped (rows : List Row) (now : String) :
    (astypeKey "Date" (applyDateCol
      (rows.map (fun r => Row.set r "Last_Fetched_At" now)))).map (kOf "Date")
      = rows.map normKey := by
  rw [map_kOf_astype_applyDate, List.map_map]
  refine List.map_congr_left fun r _ => ?_
  show normKey (Row.set r "Last_Fetched_At" now) = normKey r
  unfold normKey
  rw [Row.get_set_ne r now (by decide)]

/-! ## C4 (amended) — duplicate keys are not deduplicated -/

/-- C4 (amended) — duplicate keys within one batch are not resolved
last-write-wins.  Into an empty sheet `_upsert_data` writes every batch
row (the duplicates are all retained) and returns normally; into a
non-empty sheet whose row count differs from the batch's, a batch with
duplicate normalized keys makes the underlying `update` raise, so the
call aborts and the sheet is left unchanged. -/
theorem C4_amended_duplicates (ws : WS) (B : List Row) (key now : String) (hB : B ≠ [])
    (hkey : key ∈ dfCols B) :
    (ws.grid = [] → (upsertData ws B key now).1.grid.length = B.length
      ∧ (upsertData ws B key now).2 = UpOutcome.ok)
    ∧ (key = "Date" → ¬ (B.map normKey).Nodup → ws.grid.length ≠ B.length →
        dfCols (getAllRecords ws) ≠ [] → "Date" ∈ dfCols (getAllRecords ws) →
        upsertData ws B key now = (ws, UpOutcome.raised)) := by
  obtain ⟨b0, bs, rfl⟩ := List.exists_cons_of_ne_nil hB
  have hkey1 : key ∈ (if "Last_Fetched_At" ∈ dfCols (b0 :: bs) then dfCols (b0 :: bs)
      else dfCols (b0 :: bs) ++ ["Last_Fetched_At"]) := by
    split
    · exact hkey
    · exact List.mem_append_left _ hkey
  constructor
  · intro hgrid
    have he : dfCols (getAllRecords ws) = [] := by
      unfold getAllRecords
      rw [hgrid]
      rfl
    simp only [upsertData]
    rw [if_neg (not_not_intro hkey1), if_pos he]
    refine ⟨?_, rfl⟩
    show (writeWS _ _).grid.length = _
    unfold writeWS
    have hsl : ∀ l : List Row, (sortRows l).length = l.length :=
      fun l => List.length_insertionSort rowOrd l
    simp only [List.length_map, apply_ite List.length, hsl, length_astypeKey,
      length_applyDateCol, ite_self]
  · intro hkd hdup hlen hne hDe
    subst hkd
    simp only [upsertData]
    rw [if_neg (not_not_intro hkey1), if_neg hne, if_neg (not_not_intro hDe)]
    have hnk : (astypeKey "Date" (if "Date" ∈ (if "Last_Fetched_At" ∈ dfCols (b0 :: bs)
          then dfCols (b0 :: bs) else dfCols (b0 :: bs) ++ ["Last_Fetched_At"])
        then applyDateCol (if "Last_Fetched_At" ∈ dfCols (b0 :: bs) then b0 :: bs
          else (b0 :: bs).map (fun r => Row.set r "Last_Fetched_At" now))
        else (if "Last_Fetched_At" ∈ dfCols (b0 :: bs) then b0 :: bs
          else (b0 :: bs).map (fun r => Row.set r "Last_Fetched_At" now)))).map (kOf "Date")
        = (b0 :: bs).map normKey := by
      rw [if_pos hkey1]
      split
      · exact map_kOf_astype_applyDate (b0 :: bs)
      · exact map_kOf_pipeline_stamped (b0 :: bs) now
    have hek : (astypeKey "Date" (if ¬ dfCols (getAllRecords ws) = []
          ∧ "Date" ∈ dfCols (getAllRecords ws)
        then applyDateCol (getAllRecords ws) else getAllRecords ws)).map (kOf "Date")
        = (getAllRecords ws).map normKey := by
      rw [if_pos ⟨hne, hDe⟩]
      exact map_kOf_astype_applyDate (getAllRecords ws)
    have hraise : upsertMergeBranch "Date" (dfCols (getAllRecords ws))
        (if "Last_Fetched_At" ∈ dfCols (b0 :: bs) then dfCols (b0 :: bs)
          else dfCols (b0 :: bs) ++ ["Last_Fetched_At"])
        (if ¬ dfCols (getAllRecords ws) = [] ∧ "Date" ∈ dfCols (getAllRecords ws)
          then applyDateCol (getAllRecords ws) else getAllRecords ws)
        (astypeKey "Date" (if "Date" ∈ (if "Last_Fetched_At" ∈ dfCols (b0 :: bs)
            then dfCols (b0 :: bs) else dfCols (b0 :: bs) ++ ["Last_Fetched_At"])
          then applyDateCol (if "Last_Fetched_At" ∈ dfCols (b0 :: bs) then b0 :: bs
            else (b0 :: bs).map (fun r => Row.set r "Last_Fetched_At" now))
          else (if "Last_Fetched_At" ∈ dfCols (b0 :: bs) then b0 :: bs
            else (b0 :: bs).map (fun r => Row.set r "Last_Fetched_At" now)))) = none := by
      unfold upsertMergeBranch
      rw [if_pos]
      constructor
      · rw [hnk]
        exact hdup
      · rw [hek, hnk]
        intro hcon
        have := congrArg List.length hcon
        simp only [List.length_map] at this
        rw [show (getAllRecords ws).length = ws.grid.length from List.length_map _ _] at this
        exact hlen this
    rw [hraise]

/-- Witness for C4 (amended): the duplicate batch is fully written into
an empty sheet, and aborts against a one-row sheet. -/
theorem C4_amended_duplicates_witness :
    ((upsertData ⟨[], []⟩
        [[("Date", "2024-01-01"), ("CTL", "50")], [("Date", "2024-01-01"), ("CTL", "60")]]
        "Date" "T0").1.grid.length = 2
      ∧ (upsertData ⟨[], []⟩
          [[("Date", "2024-01-01"), ("CTL", "50")], [("Date", "2024-01-01"), ("CTL", "60")]]
          "Date" "T0").2 = UpOutcome.ok)
    ∧ upsertData ⟨["Date", "CTL"], [["2024-01-01", "10"]]⟩
        [[("Date", "2024-01-01"), ("CTL", "50")], [("Date", "2024-01-01"), ("CTL", "60")]]
        "Date" "T0"
      = (⟨["Date", "CTL"], [["2024-01-01", "10"]]⟩, UpOutcome.raised) :=
  ⟨(C4_amended_duplicates ⟨[], []⟩ _ "Date" "T0" (by decide) (by decide)).1 rfl,
   (C4_amended_duplicates ⟨["Date", "CTL"], [["2024-01-01", "10"]]⟩ _ "Date" "T0"
      (by decide) (by decide)).2 rfl (by decide) (by decide) (by decide) (by decide)⟩

/-! ## Cell-level behaviour of `update` -/

theorem get_foldl_set_of_not_mem {cs : List String} {c : String} (h : c ∉ cs) (r : Row) :
    Row.get (cs.foldl (fun a c' => Row.set a c' "") r) c = Row.get r c := by
  induction cs generalizing r with
  | nil => rfl
  | cons c0 cs ih =>
    have h0 : c ≠ c0 := fun hEq => h (hEq ▸ List.mem_cons_self c0 cs)
    show Row.get (cs.foldl _ (Row.set r c0 "")) c = _
    rw [ih (fun hm => h (List.mem_cons_of_mem c0 hm)), Row.get_set_ne r _ h0]

theorem get_updateRow_of_not_mem {colsN : List String} {c : String} (h : c ∉ colsN)
    (n r : Row) : Row.get (updateRow colsN n r) c = Row.get r c := by
  induction colsN generalizing r with
  | nil => rfl
  | cons c0 cs ih =>
    have h0 : c ≠ c0 := fun hEq => h (hEq ▸ List.mem_cons_self c0 cs)
    have htail : c ∉ cs := fun hm => h (List.mem_cons_of_mem c0 hm)
    show Row.get (cs.foldl _ (match Row.get n c0 with
      | some v => Row.set r c0 v | none => r)) c = _
    cases hg : Row.get n c0 with
    | some v =>
      rw [show (cs.foldl (fun acc c' => match Row.get n c' with
          | some w => Row.set acc c' w | none => acc) (Row.set r c0 v))
          = updateRow cs n (Row.set r c0 v) from rfl,
        ih htail, Row.get_set_ne r _ h0]
    | none =>
      exact ih htail r

theorem get_updateRow_of_none {colsN : List String} {c : String} {n : Row}
    (h : Row.get n c = none) (r : Row) :
    Row.get (updateRow colsN n r) c = Row.get r c := by
  induction colsN generalizing r with
  | nil => rfl
  | cons c0 cs ih =>
    show Row.get (cs.foldl _ (match Row.get n c0 with
      | some v => Row.set r c0 v | none => r)) c = _
    cases hg : Row.get n c0 with
    | some v =>
      have h0 : c ≠ c0 := fun hEq => by rw [hEq, hg] at h; exact Option.noConfusion h
      rw [show (cs.foldl (fun acc c' => match Row.get n c' with
          | some w => Row.set acc c' w | none => acc) (Row.set r c0 v))
          = updateRow cs n (Row.set r c0 v) from rfl,
        ih, Row.get_set_ne r _ h0]
    | none =>
      exact ih r

theorem get_updateRow_of_some {colsN : List String} {c v : String} {n : Row}
    (h : Row.get n c = some v) :
    ∀ (hc : c ∈ colsN) (r : Row), Row.get (updateRow colsN n r) c = some v := by
  induction colsN with
  | nil => intro hc; exact absurd hc (List.not_mem_nil c)
  | cons c0 cs ih =>
    intro hc r
    by_cases h0 : c0 = c
    · subst h0
      show Row.get (cs.foldl _ (match Row.get n c0 with
        | some w => Row.set r c0 w | none => r)) c0 = some v
      rw [h]
      by_cases hcs : c0 ∈ cs
      · exact ih hcs _
      · rw [show (cs.foldl (fun acc c' => match Row.get n c' with
            | some w => Row.set acc c' w | none => acc) (Row.set r c0 v))
            = updateRow cs n (Row.set r c0 v) from rfl,
          get_updateRow_of_not_mem hcs, Row.get_set_self]
    · have hcs : c ∈ cs := by
        rcases List.mem_cons.mp hc with h' | h'
        · exact absurd h'.symm h0
        · exact h'
      show Row.get (cs.foldl _ (match Row.get n c0 with
        | some w => Row.set r c0 w | none => r)) c = some v
      cases hg : Row.get n c0 with
      | some w =>
        exact ih hcs (Row.set r c0 w)
      | none =>
        exact ih hcs r

theorem kOf_updateRow {key : String} {colsN : List String} (h : key ∉ colsN) (n r : Row) :
    kOf key (updateRow colsN n r) = kOf key r := by
  unfold kOf Row.getD
  rw [get_updateRow_of_not_mem h]

/-- `update` preserves the sequence of index values of the existing
frame (row for row, in order). -/
theorem map_kOf_updateAll {key : String} {colsN : List String} (h : key ∉ colsN)
    (erows nrows : List Row) :
    (updateAll key colsN erows nrows).map (kOf key) = erows.map (kOf key) := by
  unfold updateAll
  split
  · rename_i hEq
    have aux : ∀ (e2 n2 : List Row), e2.map (kOf key) = n2.map (kOf key) →
        ((e2.zip n2).map (fun p => updateRow colsN p.2 p.1)).map (kOf key)
          = e2.map (kOf key) := by
      intro e2
      induction e2 with
      | nil => intro n2 _; rfl
      | cons r er ih =>
        intro n2 hEq2
        cases n2 with
        | nil => exact absurd hEq2 (by simp)
        | cons n nr =>
          simp only [List.map_cons, List.cons.injEq] at hEq2
          show kOf key (updateRow colsN n r) :: ((er.zip nr).map _).map (kOf key) = _
          rw [kOf_updateRow h]
          exact congrArg (kOf key r :: ·) (ih nr hEq2.2)
    exact aux erows nrows hEq
  · rw [List.map_map]
    refine List.map_congr_left fun r _ => ?_
    show kOf key (match nrows.find? (fun n => kOf key n = kOf key r) with
      | some n => updateRow colsN n r | none => r) = kOf key r
    cases hf : nrows.find? (fun n => kOf key n = kOf key r) with
    | some n => exact kOf_updateRow h n r
    | none => rfl

/-- Each updated row arises from the corresponding existing row, either
untouched or overwritten from some batch row with the same index value. -/
theorem updateAll_forall₂ (key : String) (colsN : List String) (erows nrows : List Row) :
    List.Forall₂ (fun r u => (u = r ∧ ∀ n ∈ nrows, kOf key n ≠ kOf key r)
        ∨ ∃ n ∈ nrows, kOf key n = kOf key r ∧ u = updateRow colsN n r)
      erows (updateAll key colsN erows nrows) := by
  unfold updateAll
  split
  · rename_i hEq
    have aux : ∀ (e2 n2 : List Row), e2.map (kOf key) = n2.map (kOf key) →
        (∀ x ∈ n2, x ∈ nrows) →
        List.Forall₂ (fun r u => (u = r ∧ ∀ n ∈ nrows, kOf key n ≠ kOf key r)
            ∨ ∃ n ∈ nrows, kOf key n = kOf key r ∧ u = updateRow colsN n r)
          e2 ((e2.zip n2).map (fun p => updateRow colsN p.2 p.1)) := by
      intro e2
      induction e2 with
      | nil => intro n2 _ _; exact List.Forall₂.nil
      | cons r er ih =>
        intro n2 hEq2 hsub
        cases n2 with
        | nil => exact absurd hEq2 (by simp)
        | cons n nr =>
          simp only [List.map_cons, List.cons.injEq] at hEq2
          refine List.Forall₂.cons
            (Or.inr ⟨n, hsub n (List.mem_cons_self n nr), hEq2.1.symm, rfl⟩)
            (ih nr hEq2.2 fun x hx => hsub x (List.mem_cons_of_mem n hx))
    exact aux erows nrows hEq fun x hx => hx
  · have aux2 : ∀ (l : List Row),
        List.Forall₂ (fun r u => (u = r ∧ ∀ n ∈ nrows, kOf key n ≠ kOf key r)
            ∨ ∃ n ∈ nrows, kOf key n = kOf key r ∧ u = updateRow colsN n r)
          l (l.map fun r => match nrows.find? (fun n => kOf key n = kOf key r) with
            | some n => updateRow colsN n r | none => r) := by
      intro l
      induction l with
      | nil => exact List.Forall₂.nil
      | cons r l ih =>
        refine List.Forall₂.cons ?_ ih
        show ((match nrows.find? (fun n => kOf key n = kOf key r) with
            | some n => updateRow colsN n r | none => r) = r
            ∧ ∀ n ∈ nrows, kOf key n ≠ kOf key r)
          ∨ ∃ n ∈ nrows, kOf key n = kOf key r
            ∧ (match nrows.find? (fun n => kOf key n = kOf key r) with
              | some n => updateRow colsN n r | none => r) = updateRow colsN n r
        cases hf : nrows.find? (fun n => kOf key n = kOf key r) with
        | none =>
          refine Or.inl ⟨rfl, fun n hn hcon => ?_⟩
          exact absurd (decide_eq_true hcon) (by
            simpa using List.find?_eq_none.mp hf n hn)
        | some n =>
          refine Or.inr ⟨n, List.mem_of_find?_eq_some hf, ?_, rfl⟩
          have := List.find?_some hf
          exact of_decide_eq_true this
    exact aux2 erows

/-- Characterization of a successful `update`-merge branch. -/
theorem upsertMergeBranch_some {key : String} {ecols ncols1 : List String}
    {erows1 nrows3 : List Row} {ws2 : WS}
    (h : upsertMergeBranch key ecols ncols1 erows1 nrows3 = some ws2) :
    ws2 = upsertFinish
      (key :: (ecols.erase key ++ newColsOf (ecols.erase key) (ncols1.erase key)))
      (updateAll key (ncols1.erase key)
        ((astypeKey key erows1).map (fun r =>
          (newColsOf (ecols.erase key) (ncols1.erase key)).foldl
            (fun a c => Row.set a c "") r))
        nrows3
       ++ nrows3.filter
          (fun n => kOf key n ∉ (astypeKey key erows1).map (kOf key))) := by
  simp only [upsertMergeBranch] at h
  split at h
  · exact Option.noConfusion h
  · injection h with h
    exact h.symm

/-! ## C5 (amended) — a keyless row is merged under the key `"nan"` -/

theorem exists_nan_row_pipeline {l : List Row} {r : Row} (hr : r ∈ l)
    (hnone : Row.get r "Date" = none) :
    ∃ u ∈ astypeKey "Date" (applyDateCol l), Row.get u "Date" = some "nan" := by
  refine ⟨(fun r => if (Row.get r "Date").isSome then r else Row.set r "Date" "nan")
    ((fun r => match Row.get r "Date" with
      | some v => Row.set r "Date" (reformat_date v)
      | none => Row.set r "Date" "nan") r), ?_, ?_⟩
  · exact List.mem_map_of_mem _ (List.mem_map_of_mem _ hr)
  · simp only [hnone]
    rw [if_pos (by rw [Row.get_set_self]; rfl), Row.get_set_self]

/-- C5 (amended) — an incoming row missing the designated key column is
not skipped and no skip count is reported (`_upsert_data` returns no
statistics): whenever the call returns normally, the keyless row has
been written into the sheet with the literal key `"nan"` (the value
`astype(str)` gives `NaN`), alongside the other batch rows. -/
theorem C5_amended_nan_key_not_skipped (ws : WS) (B : List Row) (now : String) (b : Row)
    (hb : b ∈ B) (hbkey : Row.get b "Date" = none)
    (hok : (upsertData ws B "Date" now).2 = UpOutcome.ok) :
    ∃ gr ∈ (upsertData ws B "Date" now).1.grid, "nan" ∈ gr := by
  cases B with
  | nil => exact absurd hb (List.not_mem_nil b)
  | cons b0 bs =>
    simp only [upsertData] at hok ⊢
    by_cases hn1 : "Date" ∈ (if "Last_Fetched_At" ∈ dfCols (b0 :: bs) then dfCols (b0 :: bs)
        else dfCols (b0 :: bs) ++ ["Last_Fetched_At"])
    · rw [if_neg (not_not_intro hn1)] at hok ⊢
      rw [if_pos hn1] at hok ⊢
      have hN1nodup : (if "Last_Fetched_At" ∈ dfCols (b0 :: bs) then dfCols (b0 :: bs)
          else dfCols (b0 :: bs) ++ ["Last_Fetched_At"]).Nodup := by
        split
        · exact dfCols_nodup _
        · rename_i hLF
          simp [List.nodup_append, dfCols_nodup, hLF]
      have hR1 : ∃ r' ∈ (if "Last_Fetched_At" ∈ dfCols (b0 :: bs) then b0 :: bs
          else (b0 :: bs).map (fun r => Row.set r "Last_Fetched_At" now)),
          Row.get r' "Date" = none := by
        split
        · exact ⟨b, hb, hbkey⟩
        · refine ⟨Row.set b "Last_Fetched_At" now, List.mem_map_of_mem _ hb, ?_⟩
          rw [Row.get_set_ne b now (by decide), hbkey]
      obtain ⟨r', hr', hr'none⟩ := hR1
      obtain ⟨u, hu, hunan⟩ := exists_nan_row_pipeline hr' hr'none
      have hukey : kOf "Date" u = "nan" := by
        unfold kOf Row.getD
        rw [hunan]
        rfl
      by_cases he : dfCols (getAllRecords ws) = []
      · rw [if_pos he]
        simp only [upsertFinish, writeWS]
        rw [if_pos hn1]
        refine ⟨matRow _ u, List.mem_map_of_mem _ ((List.mem_insertionSort rowOrd).mpr hu), ?_⟩
        refine List.mem_map.mpr ⟨"Date", hn1, ?_⟩
        unfold Row.getD
        rw [hunan]
        rfl
      · rw [if_neg he] at hok ⊢
        by_cases hkE : "Date" ∈ dfCols (getAllRecords ws)
        · rw [if_neg (not_not_intro hkE)] at hok ⊢
          cases hmb : upsertMergeBranch "Date" (dfCols (getAllRecords ws))
              (if "Last_Fetched_At" ∈ dfCols (b0 :: bs) then dfCols (b0 :: bs)
                else dfCols (b0 :: bs) ++ ["Last_Fetched_At"])
              (if ¬ dfCols (getAllRecords ws) = [] ∧ "Date" ∈ dfCols (getAllRecords ws)
                then applyDateCol (getAllRecords ws) else getAllRecords ws)
              (astypeKey "Date" (applyDateCol
                (if "Last_Fetched_At" ∈ dfCols (b0 :: bs) then b0 :: bs
                  else (b0 :: bs).map (fun r => Row.set r "Last_Fetched_At" now)))) with
          | none =>
            rw [hmb] at hok
            exact UpOutcome.noConfusion hok
          | some ws2 =>
            show ∃ gr ∈ ws2.grid, "nan" ∈ gr
            have hws2 := upsertMergeBranch_some hmb
            rw [hws2]
            have hkeyN : "Date" ∉ (if "Last_Fetched_At" ∈ dfCols (b0 :: bs)
                  then dfCols (b0 :: bs)
                  else dfCols (b0 :: bs) ++ ["Last_Fetched_At"]).erase "Date" :=
                hN1nodup.not_mem_erase
            have hDnew : "Date" ∉ newColsOf
                ((dfCols (getAllRecords ws)).erase "Date")
                ((if "Last_Fetched_At" ∈ dfCols (b0 :: bs) then dfCols (b0 :: bs)
                  else dfCols (b0 :: bs) ++ ["Last_Fetched_At"]).erase "Date") := by
              intro hmem
              unfold newColsOf at hmem
              have := (List.mem_insertionSort strLe).mp hmem
              exact hkeyN (List.mem_of_mem_filter this)
            simp only [upsertFinish, writeWS]
            rw [if_pos (List.mem_cons_self _ _)]
            by_cases hnan : "nan" ∈ (astypeKey "Date"
                (if ¬ dfCols (getAllRecords ws) = [] ∧ "Date" ∈ dfCols (getAllRecords ws)
                  then applyDateCol (getAllRecords ws)
                  else getAllRecords ws)).map (kOf "Date")
            · have hup : "nan" ∈ (updateAll "Date"
                  ((if "Last_Fetched_At" ∈ dfCols (b0 :: bs) then dfCols (b0 :: bs)
                    else dfCols (b0 :: bs) ++ ["Last_Fetched_At"]).erase "Date")
                  ((astypeKey "Date"
                    (if ¬ dfCols (getAllRecords ws) = []
                        ∧ "Date" ∈ dfCols (getAllRecords ws)
                      then applyDateCol (getAllRecords ws)
                      else getAllRecords ws)).map
                    (fun r => (newColsOf ((dfCols (getAllRecords ws)).erase "Date")
                      ((if "Last_Fetched_At" ∈ dfCols (b0 :: bs) then dfCols (b0 :: bs)
                        else dfCols (b0 :: bs) ++ ["Last_Fetched_At"]).erase "Date")).foldl
                      (fun a c => Row.set a c "") r))
                  (astypeKey "Date" (applyDateCol
                    (if "Last_Fetched_At" ∈ dfCols (b0 :: bs) then b0 :: bs
                      else (b0 :: bs).map
                        (fun r => Row.set r "Last_Fetched_At" now))))).map (kOf "Date") := by
                rw [map_kOf_updateAll hkeyN, List.map_map]
                have heq : ∀ r2 : Row, (kOf "Date" ∘ fun r =>
                    (newColsOf ((dfCols (getAllRecords ws)).erase "Date")
                      ((if "Last_Fetched_At" ∈ dfCols (b0 :: bs) then dfCols (b0 :: bs)
                        else dfCols (b0 :: bs) ++ ["Last_Fetched_At"]).erase "Date")).foldl
                      (fun a c => Row.set a c "") r) r2 = kOf "Date" r2 := by
                  intro r2
                  show kOf "Date" (List.foldl _ r2 _) = kOf "Date" r2
                  unfold kOf Row.getD
                  rw [get_foldl_set_of_not_mem hDnew]
                rw [List.map_congr_left fun r2 _ => heq r2]
                exact hnan
              obtain ⟨u', hu', hu'k⟩ := List.mem_map.mp hup
              refine ⟨matRow _ u',
                List.mem_map_of_mem _ ((List.mem_insertionSort rowOrd).mpr
                  (List.mem_append_left _ hu')), ?_⟩
              exact List.mem_map.mpr ⟨"Date", List.mem_cons_self _ _, hu'k⟩
            · have hto : u ∈ (astypeKey "Date" (applyDateCol
                  (if "Last_Fetched_At" ∈ dfCols (b0 :: bs) then b0 :: bs
                    else (b0 :: bs).map (fun r => Row.set r "Last_Fetched_At" now)))).filter
                  (fun n => kOf "Date" n ∉ (astypeKey "Date"
                    (if ¬ dfCols (getAllRecords ws) = []
                        ∧ "Date" ∈ dfCols (getAllRecords ws)
                      then applyDateCol (getAllRecords ws)
                      else getAllRecords ws)).map (kOf "Date")) := by
                refine List.mem_filter.mpr ⟨hu, ?_⟩
                rw [decide_eq_true_iff, hukey]
                exact hnan
              refine ⟨matRow _ u,
                List.mem_map_of_mem _ ((List.mem_insertionSort rowOrd).mpr
                  (List.mem_append_right _ hto)), ?_⟩
              refine List.mem_map.mpr ⟨"Date", List.mem_cons_self _ _, ?_⟩
              unfold Row.getD
              rw [hunan]
              rfl
        · rw [if_pos hkE] at hok
          exact UpOutcome.noConfusion hok
    · rw [if_pos hn1] at hok
      exact UpOutcome.noConfusion hok

/-- Witness for C5 (amended): the keyless row of a concrete batch ends
up in the written grid (with cell `"nan"`). -/
theorem C5_amended_nan_key_not_skipped_witness :
    (([("CTL", "60")] : Row) ∈ ([[("Date", "2024-01-01"), ("CTL", "50")], [("CTL", "60")]] : List Row)
      ∧ Row.get ([("CTL", "60")] : Row) "Date" = none
      ∧ (upsertData ⟨[], []⟩ [[("Date", "2024-01-01"), ("CTL", "50")], [("CTL", "60")]]
          "Date" "T0").2 = UpOutcome.ok)
    ∧ ∃ gr ∈ (upsertData ⟨[], []⟩ [[("Date", "2024-01-01"), ("CTL", "50")], [("CTL", "60")]]
        "Date" "T0").1.grid, "nan" ∈ gr :=
  ⟨by decide, C5_amended_nan_key_not_skipped ⟨[], []⟩ _ "T0" [("CTL", "60")]
    (by decide) (by decide) (by decide)⟩

/-! ## Forall₂ projections and merge-branch row facts -/

theorem forall₂_exists_right {α : Type} {R : α → α → Prop} :
    ∀ {l₁ l₂ : List α}, List.Forall₂ R l₁ l₂ → ∀ {a}, a ∈ l₁ → ∃ b ∈ l₂, R a b := by
  intro l₁ l₂ h
  induction h with
  | nil => intro a ha; exact absurd ha (List.not_mem_nil a)
  | cons hR hF ih =>
    intro a ha
    rcases List.mem_cons.mp ha with h' | h'
    · exact ⟨_, List.mem_cons_self _ _, h' ▸ hR⟩
    · obtain ⟨b, hb, hRb⟩ := ih h'
      exact ⟨b, List.mem_cons_of_mem _ hb, hRb⟩

theorem forall₂_exists_left {α : Type} {R : α → α → Prop} :
    ∀ {l₁ l₂ : List α}, List.Forall₂ R l₁ l₂ → ∀ {b}, b ∈ l₂ → ∃ a ∈ l₁, R a b := by
  intro l₁ l₂ h
  induction h with
  | nil => intro b hb; exact absurd hb (List.not_mem_nil b)
  | cons hR hF ih =>
    intro b hb
    rcases List.mem_cons.mp hb with h' | h'
    · exact ⟨_, List.mem_cons_self _ _, h' ▸ hR⟩
    · obtain ⟨a, ha, hRa⟩ := ih h'
      exact ⟨a, List.mem_cons_of_mem _ ha, hRa⟩

/-- Every updated row whose index value occurs among the batch keys was
overwritten from a batch row, so a cell carried by every batch row is
stamped onto it. -/
theorem get_updateAll_of_all {key c v : String} {colsN : List String}
    {erows nrows : List Row} (hkey : key ∉ colsN) (hc : c ∈ colsN)
    (hall : ∀ n ∈ nrows, Row.get n c = some v) :
    ∀ u ∈ updateAll key colsN erows nrows,
      kOf key u ∈ nrows.map (kOf key) → Row.get u c = some v := by
  intro u hu hk
  obtain ⟨r0, hr0, hR⟩ := forall₂_exists_left (updateAll_forall₂ key colsN erows nrows) hu
  rcases hR with ⟨hur, hnone⟩ | ⟨n, hn, hkn, hun⟩
  · obtain ⟨n', hn', hkn'⟩ := List.mem_map.mp hk
    rw [hur] at hkn'
    exact absurd hkn' (hnone n' hn')
  · rw [hun]
    exact get_updateRow_of_some (hall n hn) hc _

/-- For every existing index value there is an updated row with that
index value; when the value also occurs among the batch keys, the
updated row carries any cell shared by all batch rows. -/
theorem exists_updateAll_key {key c v : String} {colsN : List String}
    {erows nrows : List Row} (hkey : key ∉ colsN) (hc : c ∈ colsN)
    (hall : ∀ n ∈ nrows, Row.get n c = some v) {k : String}
    (hkE : k ∈ erows.map (kOf key)) (hkN : k ∈ nrows.map (kOf key)) :
    ∃ u ∈ updateAll key colsN erows nrows, kOf key u = k ∧ Row.get u c = some v := by
  obtain ⟨r0, hr0, hk0⟩ := List.mem_map.mp hkE
  obtain ⟨u, hu, hR⟩ := forall₂_exists_right (updateAll_forall₂ key colsN erows nrows) hr0
  rcases hR with ⟨hur, hnone⟩ | ⟨n, hn, hkn, hun⟩
  · obtain ⟨n', hn', hkn'⟩ := List.mem_map.mp hkN
    rw [← hk0] at hkn'
    exact absurd hkn' (hnone n' hn')
  · refine ⟨u, hu, ?_, ?_⟩
    · rw [hun, kOf_updateRow hkey, hk0]
    · rw [hun]
      exact get_updateRow_of_some (hall n hn) hc _

/-! ## C9 — the `Last_Fetched_At` clock stamp -/

theorem get_LFA_pipeline {B : List Row} {now : String} :
    ∀ n ∈ astypeKey "Date" (applyDateCol
      (B.map (fun r => Row.set r "Last_Fetched_At" now))),
      Row.get n "Last_Fetched_At" = some now := by
  intro n hn
  unfold astypeKey at hn
  obtain ⟨m, hm, rfl⟩ := List.mem_map.mp hn
  unfold applyDateCol at hm
  obtain ⟨p, hp, rfl⟩ := List.mem_map.mp hm
  obtain ⟨b, hb, rfl⟩ := List.mem_map.mp hp
  have hLF1 : Row.get (Row.set b "Last_Fetched_At" now) "Last_Fetched_At" = some now :=
    Row.get_set_self b "Last_Fetched_At" now
  cases hg : Row.get (Row.set b "Last_Fetched_At" now) "Date" with
  | some v =>
    simp only [hg]
    rw [if_pos (by rw [Row.get_set_self]; rfl)]
    rw [Row.get_set_ne _ _ (by decide), hLF1]
  | none =>
    simp only [hg]
    rw [if_pos (by rw [Row.get_set_self]; rfl)]
    rw [Row.get_set_ne _ _ (by decide), hLF1]

theorem map_kOf_pipeline_mem {B : List Row} {now : String} {b : Row} (hb : b ∈ B) :
    normKey b ∈ (astypeKey "Date" (applyDateCol
      (B.map (fun r => Row.set r "Last_Fetched_At" now)))).map (kOf "Date") := by
  rw [map_kOf_pipeline_stamped]
  exact List.mem_map_of_mem normKey hb

/-- Core of C9, for a single clock value: when the batch lacks a
`Last_Fetched_At` column and the call returns normally, the written
table has a `Last_Fetched_At` column, some read-back row carries the
batch row's normalized key with `Last_Fetched_At` equal to the clock
value, and every read-back row carrying that key has `Last_Fetched_At`
equal to the clock value. -/
theorem upsert_LFA_core (ws : WS) (B : List Row) (now : String) (b : Row)
    (hb : b ∈ B) (hLF : "Last_Fetched_At" ∉ dfCols B)
    (hok : (upsertData ws B "Date" now).2 = UpOutcome.ok) :
    "Last_Fetched_At" ∈ (upsertData ws B "Date" now).1.header
    ∧ (∃ r ∈ getAllRecords (upsertData ws B "Date" now).1,
        kOf "Date" r = normKey b ∧ Row.get r "Last_Fetched_At" = some now)
    ∧ (∀ r ∈ getAllRecords (upsertData ws B "Date" now).1,
        kOf "Date" r = normKey b → Row.get r "Last_Fetched_At" = some now) := by
  cases B with
  | nil => exact absurd hb (List.not_mem_nil b)
  | cons b0 bs =>
    simp only [upsertData] at hok ⊢
    rw [if_neg hLF] at hok ⊢
    rw [if_neg hLF] at hok ⊢
    by_cases hn1 : "Date" ∈ dfCols (b0 :: bs) ++ ["Last_Fetched_At"]
    · rw [if_neg (not_not_intro hn1), if_pos hn1] at hok ⊢
      have hLFA1 : "Last_Fetched_At" ∈ dfCols (b0 :: bs) ++ ["Last_Fetched_At"] :=
        List.mem_append_right _ (List.mem_singleton_self _)
      have hall : ∀ n ∈ astypeKey "Date" (applyDateCol
          ((b0 :: bs).map (fun r => Row.set r "Last_Fetched_At" now))),
          Row.get n "Last_Fetched_At" = some now := get_LFA_pipeline
      have hkN : normKey b ∈ (astypeKey "Date" (applyDateCol
          ((b0 :: bs).map (fun r => Row.set r "Last_Fetched_At" now)))).map (kOf "Date") :=
        map_kOf_pipeline_mem hb
      by_cases he : dfCols (getAllRecords ws) = []
      · rw [if_pos he]
        simp only [upsertFinish]
        rw [if_pos hn1]
        refine ⟨hLFA1, ?_, ?_⟩
        · obtain ⟨u, hu, hku⟩ := List.mem_map.mp hkN
          refine ⟨rbRow (dfCols (b0 :: bs) ++ ["Last_Fetched_At"]) u, ?_, ?_, ?_⟩
          · rw [getAllRecords_writeWS]
            exact List.mem_map_of_mem _ ((List.mem_insertionSort rowOrd).mpr hu)
          · show Row.getD (rbRow _ u) "Date" = _
            rw [getD_rbRow_of_mem hn1]
            exact hku
          · rw [get_rbRow, if_pos hLFA1]
            unfold Row.getD
            rw [hall u hu]
            rfl
        · intro r hr _
          rw [getAllRecords_writeWS] at hr
          obtain ⟨u, hu, rfl⟩ := List.mem_map.mp hr
          rw [get_rbRow, if_pos hLFA1]
          unfold Row.getD
          rw [hall u ((List.mem_insertionSort rowOrd).mp hu)]
          rfl
      · rw [if_neg he] at hok ⊢
        by_cases hkE : "Date" ∈ dfCols (getAllRecords ws)
        · rw [if_neg (not_not_intro hkE)] at hok ⊢
          cases hmb : upsertMergeBranch "Date" (dfCols (getAllRecords ws))
              (dfCols (b0 :: bs) ++ ["Last_Fetched_At"])
              (if ¬ dfCols (getAllRecords ws) = [] ∧ "Date" ∈ dfCols (getAllRecords ws)
                then applyDateCol (getAllRecords ws) else getAllRecords ws)
              (astypeKey "Date" (applyDateCol
                ((b0 :: bs).map (fun r => Row.set r "Last_Fetched_At" now)))) with
          | none =>
            rw [hmb] at hok
            exact UpOutcome.noConfusion hok
          | some ws2 =>
            show "Last_Fetched_At" ∈ ws2.header ∧ _ ∧ _
            have hws2 := upsertMergeBranch_some hmb
            rw [hws2]
            have hN1nodup : (dfCols (b0 :: bs) ++ ["Last_Fetched_At"]).Nodup := by
              simp [List.nodup_append, dfCols_nodup, hLF]
            have hkeyN : "Date" ∉ (dfCols (b0 :: bs) ++ ["Last_Fetched_At"]).erase "Date" :=
              hN1nodup.not_mem_erase
            have hLFAcolsN : "Last_Fetched_At" ∈
                (dfCols (b0 :: bs) ++ ["Last_Fetched_At"]).erase "Date" :=
              (List.mem_erase_of_ne (by decide)).mpr hLFA1
            have hDnew : "Date" ∉ newColsOf ((dfCols (getAllRecords ws)).erase "Date")
                ((dfCols (b0 :: bs) ++ ["Last_Fetched_At"]).erase "Date") := by
              intro hmem
              unfold newColsOf at hmem
              exact hkeyN (List.mem_of_mem_filter ((List.mem_insertionSort strLe).mp hmem))
            have hcols : "Last_Fetched_At" ∈ "Date" ::
                ((dfCols (getAllRecords ws)).erase "Date" ++
                  newColsOf ((dfCols (getAllRecords ws)).erase "Date")
                    ((dfCols (b0 :: bs) ++ ["Last_Fetched_At"]).erase "Date")) := by
              refine List.mem_cons_of_mem _ (List.mem_append.mpr ?_)
              by_cases hL : "Last_Fetched_At" ∈ (dfCols (getAllRecords ws)).erase "Date"
              · exact Or.inl hL
              · refine Or.inr ?_
                unfold newColsOf
                refine (List.mem_insertionSort strLe).mpr (List.mem_filter.mpr ⟨hLFAcolsN, ?_⟩)
                exact decide_eq_true hL
            have hDcols : "Date" ∈ "Date" ::
                ((dfCols (getAllRecords ws)).erase "Date" ++
                  newColsOf ((dfCols (getAllRecords ws)).erase "Date")
                    ((dfCols (b0 :: bs) ++ ["Last_Fetched_At"]).erase "Date")) :=
              List.mem_cons_self _ _
            -- keys of the extended existing frame agree with the raw existing keys
            have hkeysE : ((astypeKey "Date" (if ¬ dfCols (getAllRecords ws) = []
                  ∧ "Date" ∈ dfCols (getAllRecords ws)
                then applyDateCol (getAllRecords ws) else getAllRecords ws)).map
                  (fun r => (newColsOf ((dfCols (getAllRecords ws)).erase "Date")
                    ((dfCols (b0 :: bs) ++ ["Last_Fetched_At"]).erase "Date")).foldl
                    (fun a c => Row.set a c "") r)).map (kOf "Date")
                = (astypeKey "Date" (if ¬ dfCols (getAllRecords ws) = []
                    ∧ "Date" ∈ dfCols (getAllRecords ws)
                  then applyDateCol (getAllRecords ws) else getAllRecords ws)).map
                    (kOf "Date") := by
              rw [List.map_map]
              refine List.map_congr_left fun r2 _ => ?_
              show kOf "Date" (List.foldl _ r2 _) = kOf "Date" r2
              unfold kOf Row.getD
              rw [get_foldl_set_of_not_mem hDnew]
            simp only [upsertFinish]
            rw [if_pos hDcols]
            refine ⟨hcols, ?_, ?_⟩
            · -- some read-back row carries b's key with the clock stamp
              by_cases hkEy : normKey b ∈ (astypeKey "Date"
                  (if ¬ dfCols (getAllRecords ws) = []
                      ∧ "Date" ∈ dfCols (getAllRecords ws)
                    then applyDateCol (getAllRecords ws)
                    else getAllRecords ws)).map (kOf "Date")
              · obtain ⟨u, hu, hku, hLu⟩ := exists_updateAll_key hkeyN hLFAcolsN hall
                  (k := normKey b) (by rw [hkeysE]; exact hkEy) hkN
                refine ⟨rbRow ("Date" :: ((dfCols (getAllRecords ws)).erase "Date" ++ newColsOf ((dfCols (getAllRecords ws)).erase "Date") ((dfCols (b0 :: bs) ++ ["Last_Fetched_At"]).erase "Date"))) u, ?_, ?_, ?_⟩
                · rw [getAllRecords_writeWS]
                  exact List.mem_map_of_mem _ ((List.mem_insertionSort rowOrd).mpr
                    (List.mem_append_left _ hu))
                · show Row.getD (rbRow _ u) "Date" = _
                  rw [getD_rbRow_of_mem hDcols]
                  exact hku
                · rw [get_rbRow, if_pos hcols]
                  unfold Row.getD
                  rw [hLu]
                  rfl
              · obtain ⟨u, hu, hku⟩ := List.mem_map.mp hkN
                have hto : u ∈ (astypeKey "Date" (applyDateCol
                    ((b0 :: bs).map (fun r => Row.set r "Last_Fetched_At" now)))).filter
                    (fun n => kOf "Date" n ∉ (astypeKey "Date"
                      (if ¬ dfCols (getAllRecords ws) = []
                          ∧ "Date" ∈ dfCols (getAllRecords ws)
                        then applyDateCol (getAllRecords ws)
                        else getAllRecords ws)).map (kOf "Date")) := by
                  refine List.mem_filter.mpr ⟨hu, ?_⟩
                  rw [decide_eq_true_iff, hku]
                  exact hkEy
                refine ⟨rbRow ("Date" :: ((dfCols (getAllRecords ws)).erase "Date" ++ newColsOf ((dfCols (getAllRecords ws)).erase "Date") ((dfCols (b0 :: bs) ++ ["Last_Fetched_At"]).erase "Date"))) u, ?_, ?_, ?_⟩
                · rw [getAllRecords_writeWS]
                  exact List.mem_map_of_mem _ ((List.mem_insertionSort rowOrd).mpr
                    (List.mem_append_right _ hto))
                · show Row.getD (rbRow _ u) "Date" = _
                  rw [getD_rbRow_of_mem hDcols]
                  exact hku
                · rw [get_rbRow, if_pos hcols]
                  unfold Row.getD
                  rw [hall u hu]
                  rfl
            · -- every read-back row with b's key carries the clock stamp
              intro r hr hkr
              rw [getAllRecords_writeWS] at hr
              obtain ⟨u, hu, rfl⟩ := List.mem_map.mp hr
              have hu2 := (List.mem_insertionSort rowOrd).mp hu
              have hkru : kOf "Date" u = normKey b := by
                rw [show kOf "Date" (rbRow _ u) = Row.getD (rbRow _ u) "Date" from rfl,
                  getD_rbRow_of_mem hDcols] at hkr
                exact hkr
              rw [get_rbRow, if_pos hcols]
              rcases List.mem_append.mp hu2 with hupd | happ
              · have := get_updateAll_of_all hkeyN hLFAcolsN hall u hupd (by
                  rw [hkru]; exact hkN)
                unfold Row.getD
                rw [this]
                rfl
              · have := hall u (List.mem_of_mem_filter happ)
                unfold Row.getD
                rw [this]
                rfl
        · rw [if_pos hkE] at hok
          exact UpOutcome.noConfusion hok
    · rw [if_pos hn1] at hok
      exact UpOutcome.noConfusion hok

/-- C9 — when the incoming batch has no `Last_Fetched_At` column,
`_upsert_data` adds that column and stamps every incoming row with the
wall-clock value read at the call (`datetime.now().isoformat()`); the
written table is therefore a function of the clock as well as of the
inputs, and two normally-returning calls with identical inputs at
different clock values write different tables. -/
theorem C9_last_fetched_at_clock (ws : WS) (B : List Row) (now now' : String) (b : Row)
    (hb : b ∈ B) (hLF : "Last_Fetched_At" ∉ dfCols B)
    (hok : (upsertData ws B "Date" now).2 = UpOutcome.ok)
    (hok' : (upsertData ws B "Date" now').2 = UpOutcome.ok) :
    "Last_Fetched_At" ∈ (upsertData ws B "Date" now).1.header
    ∧ (∃ r ∈ getAllRecords (upsertData ws B "Date" now).1,
        kOf "Date" r = normKey b ∧ Row.get r "Last_Fetched_At" = some now)
    ∧ (now ≠ now' → (upsertData ws B "Date" now).1 ≠ (upsertData ws B "Date" now').1) := by
  obtain ⟨h1, h2, _⟩ := upsert_LFA_core ws B now b hb hLF hok
  refine ⟨h1, h2, ?_⟩
  intro hne heq
  obtain ⟨r, hr, hkr, hLr⟩ := h2
  have h3 := (upsert_LFA_core ws B now' b hb hLF hok').2.2 r (by rw [← heq]; exact hr) hkr
  rw [hLr] at h3
  injection h3 with h3
  exact hne h3

/-- Witness for C9 at a concrete sheet, batch and two clock values. -/
theorem C9_last_fetched_at_clock_witness :
    (([("Date", "2024-01-01"), ("HRV", "55")] : Row)
        ∈ ([[("Date", "2024-01-01"), ("HRV", "55")]] : List Row)
      ∧ "Last_Fetched_At" ∉ dfCols [[("Date", "2024-01-01"), ("HRV", "55")]]
      ∧ (upsertData ⟨["Date", "Weight"], [["2024-01-01", "80"]]⟩
          [[("Date", "2024-01-01"), ("HRV", "55")]] "Date" "T1").2 = UpOutcome.ok
      ∧ (upsertData ⟨["Date", "Weight"], [["2024-01-01", "80"]]⟩
          [[("Date", "2024-01-01"), ("HRV", "55")]] "Date" "T2").2 = UpOutcome.ok)
    ∧ "Last_Fetched_At" ∈ (upsertData ⟨["Date", "Weight"], [["2024-01-01", "80"]]⟩
        [[("Date", "2024-01-01"), ("HRV", "55")]] "Date" "T1").1.header
    ∧ (∃ r ∈ getAllRecords (upsertData ⟨["Date", "Weight"], [["2024-01-01", "80"]]⟩
        [[("Date", "2024-01-01"), ("HRV", "55")]] "Date" "T1").1,
        kOf "Date" r = normKey [("Date", "2024-01-01"), ("HRV", "55")]
          ∧ Row.get r "Last_Fetched_At" = some "T1")
    ∧ ((upsertData ⟨["Date", "Weight"], [["2024-01-01", "80"]]⟩
        [[("Date", "2024-01-01"), ("HRV", "55")]] "Date" "T1").1
      ≠ (upsertData ⟨["Date", "Weight"], [["2024-01-01", "80"]]⟩
        [[("Date", "2024-01-01"), ("HRV", "55")]] "Date" "T2").1) := by
  have h := C9_last_fetched_at_clock ⟨["Date", "Weight"], [["2024-01-01", "80"]]⟩
    [[("Date", "2024-01-01"), ("HRV", "55")]] "T1" "T2"
    [("Date", "2024-01-01"), ("HRV", "55")] (by decide) (by decide) (by decide) (by decide)
  exact ⟨by decide, h.1, h.2.1, h.2.2 (by decide)⟩

/-! ## Further Forall₂ and worksheet well-formedness lemmas -/

theorem forall₂_map_right {α β : Type} {R : α → β → Prop} {l : List α} {f : α → β}
    (h : ∀ a ∈ l, R a (f a)) : List.Forall₂ R l (l.map f) := by
  induction l with
  | nil => exact List.Forall₂.nil
  | cons a l ih =>
    exact List.Forall₂.cons (h a (List.mem_cons_self a l))
      (ih fun a ha => h a (List.mem_cons_of_mem _ ha))

theorem forall₂_trans_comp {α β γ : Type} {R : α → β → Prop} {S : β → γ → Prop} :
    ∀ {l : List α} {m : List β} {n : List γ}, List.Forall₂ R l m → List.Forall₂ S m n →
      List.Forall₂ (fun a c => ∃ b, R a b ∧ S b c) l n := by
  intro l m n h1
  induction h1 generalizing n with
  | nil =>
    intro h2
    cases h2
    exact List.Forall₂.nil
  | cons hR hF ih =>
    intro h2
    cases h2 with
    | cons hS hF2 =>
      exact List.Forall₂.cons ⟨_, hR, hS⟩ (ih hF2)

theorem forall₂_filter_map {α β γ : Type} {R : α → β → Prop} {p : α → Bool} {q : β → Bool}
    {f : α → γ} {g : β → γ}
    (hpq : ∀ a b, R a b → (p a = q b ∧ (p a = true → f a = g b))) :
    ∀ {l : List α} {m : List β}, List.Forall₂ R l m →
      (l.filter p).map f = (m.filter q).map g := by
  intro l m h
  induction h with
  | nil => rfl
  | cons hR hF ih =>
    rename_i a b l' m'
    obtain ⟨hp, hf⟩ := hpq a b hR
    rw [List.filter_cons, List.filter_cons, ← hp]
    cases hpa : p a with
    | true =>
      simp only [hpa, if_pos]
      rw [List.map_cons, List.map_cons, hf hpa, ih]
    | false =>
      simp only [hpa, Bool.false_eq_true, if_neg, not_false_iff]
      exact ih

theorem get_zip_isSome {header : List String} {c : String} :
    ∀ {gr : List String}, c ∈ header → header.length ≤ gr.length →
      (Row.get (header.zip gr) c).isSome = true := by
  induction header with
  | nil => intro gr hc; exact absurd hc (List.not_mem_nil c)
  | cons c0 h ih =>
    intro gr hc hlen
    cases gr with
    | nil => simp at hlen
    | cons g0 g =>
      show (Row.get ((c0, g0) :: h.zip g) c).isSome = true
      by_cases h0 : c0 = c
      · rw [Row.get, if_pos h0]
        rfl
      · rw [Row.get, if_neg h0]
        refine ih ?_ (by simpa using hlen)
        rcases List.mem_cons.mp hc with h' | h'
        · exact absurd h'.symm h0
        · exact h'

theorem fst_getAllRecords {ws : WS} (hWF : ∀ gr ∈ ws.grid, gr.length = ws.header.length) :
    ∀ r ∈ getAllRecords ws, r.map Prod.fst = ws.header := by
  intro r hr
  obtain ⟨gr, hgr, rfl⟩ := List.mem_map.mp hr
  rw [List.map_fst_zip]
  rw [hWF gr hgr]

theorem dfCols_getAllRecords {ws : WS} (hWF : ∀ gr ∈ ws.grid, gr.length = ws.header.length)
    (hnodup : ws.header.Nodup) (hne : ws.grid ≠ []) :
    dfCols (getAllRecords ws) = ws.header := by
  refine dfCols_const hnodup (fst_getAllRecords hWF) ?_
  intro hcon
  exact hne (by simpa [getAllRecords] using hcon)

theorem get_getAllRecords_isSome {ws : WS} {c : String}
    (hWF : ∀ gr ∈ ws.grid, gr.length = ws.header.length) (hc : c ∈ ws.header) :
    ∀ r ∈ getAllRecords ws, (Row.get r c).isSome = true := by
  intro r hr
  obtain ⟨gr, hgr, rfl⟩ := List.mem_map.mp hr
  exact get_zip_isSome hc (le_of_eq (hWF gr hgr).symm)

/-! ## Rowwise facts about the normalization pipeline -/

theorem kOf_astype_applyDate_row (r : Row) :
    kOf "Date" ((fun r => if (Row.get r "Date").isSome then r else Row.set r "Date" "nan")
      ((fun r => match Row.get r "Date" with
        | some v => Row.set r "Date" (reformat_date v)
        | none => Row.set r "Date" "nan") r)) = normKey r := by
  cases hg : Row.get r "Date" with
  | some v =>
    simp only [hg]
    rw [if_pos (by rw [Row.get_set_self]; rfl)]
    unfold kOf Row.getD normKey
    rw [Row.get_set_self, hg]
    rfl
  | none =>
    simp only [hg]
    rw [if_pos (by rw [Row.get_set_self]; rfl)]
    unfold kOf Row.getD normKey
    rw [Row.get_set_self, hg]
    rfl

theorem get_astype_applyDate_row {c : String} (hc : c ≠ "Date") (r : Row) :
    Row.get ((fun r => if (Row.get r "Date").isSome then r else Row.set r "Date" "nan")
      ((fun r => match Row.get r "Date" with
        | some v => Row.set r "Date" (reformat_date v)
        | none => Row.set r "Date" "nan") r)) c = Row.get r c := by
  cases hg : Row.get r "Date" with
  | some v =>
    simp only [hg]
    rw [if_pos (by rw [Row.get_set_self]; rfl), Row.get_set_ne r _ hc]
  | none =>
    simp only [hg]
    rw [if_pos (by rw [Row.get_set_self]; rfl), Row.get_set_ne r _ hc]

theorem isSome_date_astype_applyDate_row (r : Row) :
    (Row.get ((fun r => if (Row.get r "Date").isSome then r else Row.set r "Date" "nan")
      ((fun r => match Row.get r "Date" with
        | some v => Row.set r "Date" (reformat_date v)
        | none => Row.set r "Date" "nan") r)) "Date").isSome = true := by
  cases hg : Row.get r "Date" with
  | some v =>
    simp only [hg]
    rw [if_pos (by rw [Row.get_set_self]; rfl), Row.get_set_self]
    rfl
  | none =>
    simp only [hg]
    rw [if_pos (by rw [Row.get_set_self]; rfl), Row.get_set_self]
    rfl

theorem reformat_date_normKey (r : Row) : reformat_date (normKey r) = normKey r := by
  unfold normKey
  cases hg : Row.get r "Date" with
  | some v => exact reformat_date_idem v
  | none => rfl

theorem sortKey_eq_isoParse_kOf (r : Row) :
    sortKey r = (isoParse (kOf "Date" r)).map ymdKey := by
  unfold sortKey kOf Row.getD
  cases Row.get r "Date" <;> rfl

/-- The cells relevant to C2 of a row run through the
`apply(reformat_date)` + `astype(str)` + new-column-extension pipeline:
the key cell is the normalized raw date, and a column other than `Date`
and outside the extension columns is untouched. -/
theorem pipeline_row_cells {nc : List String} {c : String} (hDnc : "Date" ∉ nc)
    (hcnc : c ∉ nc) (hcD : c ≠ "Date") (r : Row)
    (hs : (Row.get r "Date").isSome = true) :
    kOf "Date" (nc.foldl (fun a c' => Row.set a c' "")
      ((fun r => if (Row.get r "Date").isSome then r else Row.set r "Date" "nan")
        ((fun r => match Row.get r "Date" with
          | some v => Row.set r "Date" (reformat_date v)
          | none => Row.set r "Date" "nan") r)))
      = reformat_date (Row.getD r "Date")
    ∧ Row.get (nc.foldl (fun a c' => Row.set a c' "")
      ((fun r => if (Row.get r "Date").isSome then r else Row.set r "Date" "nan")
        ((fun r => match Row.get r "Date" with
          | some v => Row.set r "Date" (reformat_date v)
          | none => Row.set r "Date" "nan") r))) c
      = Row.get r c := by
  obtain ⟨v, hv⟩ := Option.isSome_iff_exists.mp hs
  constructor
  · have h1 := kOf_astype_applyDate_row r
    unfold kOf Row.getD at h1 ⊢
    rw [get_foldl_set_of_not_mem hDnc, h1]
    unfold normKey
    rw [hv]
    rfl
  · rw [get_foldl_set_of_not_mem hcnc]
    exact get_astype_applyDate_row hcD r

/-- Keys produced by the `apply(reformat_date)` + `astype(str)` pipeline
are fixed points of `reformat_date`. -/
theorem reformat_kOf_pipeline {R : List Row} :
    ∀ n ∈ astypeKey "Date" (applyDateCol R),
      reformat_date (kOf "Date" n) = kOf "Date" n := by
  intro n hn
  unfold astypeKey at hn
  obtain ⟨m, hm, rfl⟩ := List.mem_map.mp hn
  unfold applyDateCol at hm
  obtain ⟨b, hb, rfl⟩ := List.mem_map.mp hm
  rw [kOf_astype_applyDate_row b]
  exact reformat_date_normKey b

/-- If no raw batch row keyed `κ` carries a value in column `c`, the
same holds after the normalization pipeline. -/
theorem kOf_get_pipeline {R : List Row} {κ c : String} (hcD : c ≠ "Date")
    (hB1 : ∀ m ∈ R, normKey m = κ → Row.get m c = none) :
    ∀ n ∈ astypeKey "Date" (applyDateCol R),
      kOf "Date" n = κ → Row.get n c = none := by
  intro n hn hk
  unfold astypeKey at hn
  obtain ⟨m, hm, rfl⟩ := List.mem_map.mp hn
  unfold applyDateCol at hm
  obtain ⟨b, hb, rfl⟩ := List.mem_map.mp hm
  rw [kOf_astype_applyDate_row b] at hk
  rw [get_astype_applyDate_row hcD b]
  exact hB1 b hb hk

/-- Core of C2 (amended): over a successful `update`-merge of
`_upsert_data`, the sequence of `c`-cells of the rows keyed `κ` (a key
already present in the snapshot) is preserved, provided no incoming
(pipelined) row keyed `κ` carries a value in `c`. -/
theorem upsert_cells_core (ws : WS) (ncols1 : List String) (nrows3 : List Row)
    (κ c : String) (ws2 : WS)
    (hWF : ∀ gr ∈ ws.grid, gr.length = ws.header.length)
    (hnodup : ws.header.Nodup)
    (hDateHead : "Date" ∈ ws.header)
    (hcHead : c ∈ ws.header) (hcDate : c ≠ "Date")
    (hκ : κ ∈ (getAllRecords ws).map (fun r => reformat_date (Row.getD r "Date")))
    (hN1nodup : ncols1.Nodup)
    (hnorm : ∀ n ∈ nrows3, reformat_date (kOf "Date" n) = kOf "Date" n)
    (hnκ : ∀ n ∈ nrows3, kOf "Date" n = κ → Row.get n c = none)
    (hmb : upsertMergeBranch "Date" (dfCols (getAllRecords ws)) ncols1
        (applyDateCol (getAllRecords ws)) nrows3 = some ws2) :
    ((getAllRecords ws2).filter
        (fun r => decide (reformat_date (Row.getD r "Date") = κ))).map (fun r => Row.getD r c)
      = ((getAllRecords ws).filter
        (fun r => decide (reformat_date (Row.getD r "Date") = κ))).map (fun r => Row.getD r c) := by
  obtain ⟨r0, hr0E, _⟩ := List.mem_map.mp hκ
  have hgrid : ws.grid ≠ [] := by
    intro h0
    refine absurd hr0E ?_
    show r0 ∉ getAllRecords ws
    unfold getAllRecords
    rw [h0]
    exact List.not_mem_nil r0
  have hws2 := upsertMergeBranch_some hmb
  rw [dfCols_getAllRecords hWF hnodup hgrid] at hws2
  have hDsome : ∀ r ∈ getAllRecords ws, (Row.get r "Date").isSome = true :=
    get_getAllRecords_isSome hWF hDateHead
  set E := getAllRecords ws with hE0
  set colsE := ws.header.erase "Date" with hcE
  set colsN := ncols1.erase "Date" with hcN
  set nc := newColsOf colsE colsN with hnc0
  set erows2 := astypeKey "Date" (applyDateCol E) with he2
  set erows3 := erows2.map (fun r => nc.foldl (fun a c => Row.set a c "") r) with he3
  set eKeys := erows2.map (kOf "Date") with hek0
  set updated := updateAll "Date" colsN erows3 nrows3 with hupd0
  set toAppend := nrows3.filter (fun n => kOf "Date" n ∉ eKeys) with hta0
  set cols := "Date" :: (colsE ++ nc) with hcols0
  have hDcolsN : "Date" ∉ colsN := by
    rw [hcN]
    exact hN1nodup.not_mem_erase
  have hcColsE : c ∈ colsE := by
    rw [hcE]
    exact (List.mem_erase_of_ne hcDate).mpr hcHead
  have hDnc : "Date" ∉ nc := by
    rw [hnc0]
    intro hm
    unfold newColsOf at hm
    exact hDcolsN (List.mem_of_mem_filter ((List.mem_insertionSort strLe).mp hm))
  have hcnc : c ∉ nc := by
    rw [hnc0]
    intro hm
    unfold newColsOf at hm
    have h2 := (List.mem_filter.mp ((List.mem_insertionSort strLe).mp hm)).2
    exact (of_decide_eq_true h2) hcColsE
  have hDcols : "Date" ∈ cols := by
    rw [hcols0]
    exact List.mem_cons_self _ _
  have hccols : c ∈ cols := by
    rw [hcols0]
    exact List.mem_cons_of_mem _ (List.mem_append_left _ hcColsE)
  have hκE : κ ∈ eKeys := by
    rw [hek0, he2, map_kOf_astype_applyDate]
    have hmapeq : E.map normKey = E.map (fun r => reformat_date (Row.getD r "Date")) := by
      refine List.map_congr_left fun r hr => ?_
      obtain ⟨v, hv⟩ := Option.isSome_iff_exists.mp (hDsome r hr)
      unfold normKey Row.getD
      rw [hv]
      rfl
    rw [hmapeq]
    exact hκ
  have hch1 : List.Forall₂
      (fun r e => kOf "Date" e = reformat_date (Row.getD r "Date")
        ∧ Row.get e c = Row.get r c) E erows3 := by
    rw [he3, he2]
    unfold astypeKey applyDateCol
    rw [List.map_map, List.map_map]
    refine forall₂_map_right fun r hr => ?_
    have hpf := pipeline_row_cells hDnc hcnc hcDate r (hDsome r hr)
    exact ⟨hpf.1, hpf.2⟩
  have hcomp := forall₂_trans_comp hch1 (updateAll_forall₂ "Date" colsN erows3 nrows3)
  have hku_of : ∀ e u, ((u = e ∧ ∀ n ∈ nrows3, kOf "Date" n ≠ kOf "Date" e)
      ∨ ∃ n ∈ nrows3, kOf "Date" n = kOf "Date" e ∧ u = updateRow colsN n e) →
      kOf "Date" u = kOf "Date" e := by
    intro e u hP
    rcases hP with ⟨rfl, _⟩ | ⟨n, _, _, rfl⟩
    · rfl
    · exact kOf_updateRow hDcolsN n e
  have hpq : ∀ (r u : Row), (∃ e, (kOf "Date" e = reformat_date (Row.getD r "Date")
        ∧ Row.get e c = Row.get r c)
      ∧ ((u = e ∧ ∀ n ∈ nrows3, kOf "Date" n ≠ kOf "Date" e)
        ∨ ∃ n ∈ nrows3, kOf "Date" n = kOf "Date" e ∧ u = updateRow colsN n e)) →
      (decide (reformat_date (Row.getD r "Date") = κ)
          = decide (reformat_date (kOf "Date" u) = κ)
        ∧ (decide (reformat_date (Row.getD r "Date") = κ) = true →
            Row.getD r c = Row.getD (rbRow cols u) c)) := by
    intro r u hQQ
    obtain ⟨e, ⟨hek, hec⟩, hP⟩ := hQQ
    have hku : kOf "Date" u = kOf "Date" e := hku_of e u hP
    constructor
    · rw [hku, hek, reformat_date_idem]
    · intro hpr
      have hκr : reformat_date (Row.getD r "Date") = κ := of_decide_eq_true hpr
      rw [getD_rbRow_of_mem hccols]
      have hgc : Row.get u c = Row.get r c := by
        rcases hP with ⟨rfl, _⟩ | ⟨n, hn, hkn, rfl⟩
        · exact hec
        · have hknκ : kOf "Date" n = κ := by
            rw [hkn, hek]
            exact hκr
          rw [get_updateRow_of_none (hnκ n hn hknκ)]
          exact hec
      unfold Row.getD
      rw [hgc]
  have hfm : (E.filter (fun r => decide (reformat_date (Row.getD r "Date") = κ))).map
        (fun r => Row.getD r c)
      = (updated.filter (fun u => decide (reformat_date (kOf "Date" u) = κ))).map
        (fun u => Row.getD (rbRow cols u) c) :=
    forall₂_filter_map hpq hcomp
  rw [hws2]
  simp only [upsertFinish]
  rw [if_pos hDcols, getAllRecords_writeWS, List.filter_map, List.map_map]
  have hpcomp : ∀ u ∈ sortRows (updated ++ toAppend),
      ((fun r => decide (reformat_date (Row.getD r "Date") = κ)) ∘ rbRow cols) u
        = (fun u => decide (reformat_date (kOf "Date" u) = κ)) u := by
    intro u _
    show decide (reformat_date (Row.getD (rbRow cols u) "Date") = κ)
        = decide (reformat_date (kOf "Date" u) = κ)
    rw [getD_rbRow_of_mem hDcols]
    rfl
  rw [List.filter_congr hpcomp, filter_sortRows, List.filter_append]
  have hto : toAppend.filter (fun u => decide (reformat_date (kOf "Date" u) = κ)) = [] := by
    rw [hta0]
    refine List.filter_eq_nil_iff.mpr fun n hn => ?_
    have hn1 : n ∈ nrows3 := List.mem_of_mem_filter hn
    have hn2 : kOf "Date" n ∉ eKeys := of_decide_eq_true (List.mem_filter.mp hn).2
    intro hq
    have h3 : reformat_date (kOf "Date" n) = κ := of_decide_eq_true hq
    rw [hnorm n hn1] at h3
    exact hn2 (by rw [h3]; exact hκE)
  rw [hto, List.append_nil]
  have hkupd : ∀ u ∈ updated.filter (fun u => decide (reformat_date (kOf "Date" u) = κ)),
      kOf "Date" u = κ := by
    intro u hu
    have hu1 : u ∈ updated := List.mem_of_mem_filter hu
    have hq : reformat_date (kOf "Date" u) = κ :=
      of_decide_eq_true (List.mem_filter.mp hu).2
    obtain ⟨r, hr, e, ⟨hek, _⟩, hP⟩ := forall₂_exists_left hcomp hu1
    have hku : kOf "Date" u = kOf "Date" e := hku_of e u hP
    rw [hku, hek] at hq ⊢
    rw [reformat_date_idem] at hq
    exact hq
  have hties : sortRows (updated.filter
      (fun u => decide (reformat_date (kOf "Date" u) = κ)))
      = updated.filter (fun u => decide (reformat_date (kOf "Date" u) = κ)) := by
    refine sortRows_of_ties fun a ha b hb => rowOrd_of_ties ?_
    rw [sortKey_eq_isoParse_kOf, sortKey_eq_isoParse_kOf, hkupd a ha, hkupd b hb]
  rw [hties]
  exact hfm.symm

/-- Within the executable representative model (stable `sortRows`), the
sequence of `(κ, c)` cells is preserved exactly by `_upsert_data` under
the hypotheses of the amended C2. -/
theorem upsert_cells_preserved_model (ws : WS) (B : List Row) (now κ c : String)
    (hWF : ∀ gr ∈ ws.grid, gr.length = ws.header.length)
    (hnodup : ws.header.Nodup)
    (hcHead : c ∈ ws.header)
    (hcDate : c ≠ "Date")
    (hcLFA : c = "Last_Fetched_At" → "Last_Fetched_At" ∈ dfCols B)
    (hκ : κ ∈ (getAllRecords ws).map (fun r => reformat_date (Row.getD r "Date")))
    (hB : ∀ b ∈ B, normKey b = κ → Row.get b c = none) :
    ((getAllRecords (upsertData ws B "Date" now).1).filter
        (fun r => decide (reformat_date (Row.getD r "Date") = κ))).map (fun r => Row.getD r c)
      = ((getAllRecords ws).filter
        (fun r => decide (reformat_date (Row.getD r "Date") = κ))).map (fun r => Row.getD r c) := by
  obtain ⟨r0, hr0E, _⟩ := List.mem_map.mp hκ
  have hgrid : ws.grid ≠ [] := by
    intro h0
    refine absurd hr0E ?_
    show r0 ∉ getAllRecords ws
    unfold getAllRecords
    rw [h0]
    exact List.not_mem_nil r0
  have hE : dfCols (getAllRecords ws) = ws.header := dfCols_getAllRecords hWF hnodup hgrid
  have hne : ¬ dfCols (getAllRecords ws) = [] := by
    rw [hE]
    intro h0
    rw [h0] at hcHead
    exact List.not_mem_nil c hcHead
  cases B with
  | nil => rfl
  | cons b0 bs =>
    simp only [upsertData]
    by_cases hL : "Last_Fetched_At" ∈ dfCols (b0 :: bs)
    · rw [if_pos hL, if_pos hL]
      by_cases hn1 : "Date" ∈ dfCols (b0 :: bs)
      · rw [if_neg (not_not_intro hn1), if_pos hn1, if_neg hne]
        by_cases hkE : "Date" ∈ dfCols (getAllRecords ws)
        · rw [if_neg (not_not_intro hkE),
            if_pos (⟨hne, hkE⟩ : ¬dfCols (getAllRecords ws) = []
              ∧ "Date" ∈ dfCols (getAllRecords ws))]
          have hDateHead : "Date" ∈ ws.header := by
            rw [← hE]
            exact hkE
          cases hmb : upsertMergeBranch "Date" (dfCols (getAllRecords ws))
              (dfCols (b0 :: bs)) (applyDateCol (getAllRecords ws))
              (astypeKey "Date" (applyDateCol (b0 :: bs))) with
          | none => rfl
          | some ws2 =>
            exact upsert_cells_core ws (dfCols (b0 :: bs))
              (astypeKey "Date" (applyDateCol (b0 :: bs))) κ c ws2 hWF hnodup
              hDateHead hcHead hcDate hκ (dfCols_nodup _)
              reformat_kOf_pipeline (kOf_get_pipeline hcDate hB) hmb
        · rw [if_pos hkE]
      · rw [if_pos hn1]
    · rw [if_neg hL, if_neg hL]
      have hcL : c ≠ "Last_Fetched_At" := fun hEq => hL (hcLFA hEq)
      have hB1 : ∀ m ∈ (b0 :: bs).map (fun r => Row.set r "Last_Fetched_At" now),
          normKey m = κ → Row.get m c = none := by
        intro m hm
        obtain ⟨b, hb, rfl⟩ := List.mem_map.mp hm
        have hnk : normKey (Row.set b "Last_Fetched_At" now) = normKey b := by
          unfold normKey
          rw [Row.get_set_ne b now (by decide)]
        intro hκm
        rw [Row.get_set_ne b now hcL]
        rw [hnk] at hκm
        exact hB b hb hκm
      by_cases hn1 : "Date" ∈ dfCols (b0 :: bs) ++ ["Last_Fetched_At"]
      · rw [if_neg (not_not_intro hn1), if_pos hn1, if_neg hne]
        have hN1nodup : (dfCols (b0 :: bs) ++ ["Last_Fetched_At"]).Nodup := by
          simp [List.nodup_append, dfCols_nodup, hL]
        by_cases hkE : "Date" ∈ dfCols (getAllRecords ws)
        · rw [if_neg (not_not_intro hkE),
            if_pos (⟨hne, hkE⟩ : ¬dfCols (getAllRecords ws) = []
              ∧ "Date" ∈ dfCols (getAllRecords ws))]
          have hDateHead : "Date" ∈ ws.header := by
            rw [← hE]
            exact hkE
          cases hmb : upsertMergeBranch "Date" (dfCols (getAllRecords ws))
              (dfCols (b0 :: bs) ++ ["Last_Fetched_At"])
              (applyDateCol (getAllRecords ws))
              (astypeKey "Date" (applyDateCol
                ((b0 :: bs).map (fun r => Row.set r "Last_Fetched_At" now)))) with
          | none => rfl
          | some ws2 =>
            exact upsert_cells_core ws (dfCols (b0 :: bs) ++ ["Last_Fetched_At"])
              (astypeKey "Date" (applyDateCol
                ((b0 :: bs).map (fun r => Row.set r "Last_Fetched_At" now)))) κ c ws2
              hWF hnodup hDateHead hcHead hcDate hκ hN1nodup
              reformat_kOf_pipeline (kOf_get_pipeline hcDate hB1) hmb
        · rw [if_pos hkE]
      · rw [if_pos hn1]

/-- C2 (amended) — for a key `κ` present in the snapshot, merging a
batch in which no row keyed `κ` carries a value in column `c` (`c` a
snapshot column other than `Date`, and not `Last_Fetched_At` unless the
batch brings that column itself) preserves the multiset of `(κ, c)`
cells of the table: batch rows with other keys do not clobber them.
The conclusion is a permutation (not an equality of sequences) because
the source's `sort_values` (default non-stable kind) leaves the relative
order of rows tied on the same key unspecified. -/
theorem C2_amended_cell_preservation (ws : WS) (B : List Row) (now κ c : String)
    (hWF : ∀ gr ∈ ws.grid, gr.length = ws.header.length)
    (hnodup : ws.header.Nodup)
    (hcHead : c ∈ ws.header)
    (hcDate : c ≠ "Date")
    (hcLFA : c = "Last_Fetched_At" → "Last_Fetched_At" ∈ dfCols B)
    (hκ : κ ∈ (getAllRecords ws).map (fun r => reformat_date (Row.getD r "Date")))
    (hB : ∀ b ∈ B, normKey b = κ → Row.get b c = none) :
    List.Perm
      (((getAllRecords (upsertData ws B "Date" now).1).filter
        (fun r => decide (reformat_date (Row.getD r "Date") = κ))).map (fun r => Row.getD r c))
      (((getAllRecords ws).filter
        (fun r => decide (reformat_date (Row.getD r "Date") = κ))).map (fun r => Row.getD r c)) := by
  rw [upsert_cells_preserved_model ws B now κ c hWF hnodup hcHead hcDate hcLFA hκ hB]

/-- Witness for C2 (amended): a concrete two-row sheet merged with a
batch that updates only the other key leaves the cell `(κ, c)` alone. -/
theorem C2_amended_cell_preservation_witness :
    List.Perm
      (((getAllRecords (upsertData ⟨["Date", "V"], [["2026-01-14", "x"], ["2026-01-15", "y"]]⟩
        [[("Date", "2026-01-15")]] "Date" "T1").1).filter
      (fun r => decide (reformat_date (Row.getD r "Date") = "2026-01-14"))).map
        (fun r => Row.getD r "V"))
      (((getAllRecords ⟨["Date", "V"], [["2026-01-14", "x"], ["2026-01-15", "y"]]⟩).filter
      (fun r => decide (reformat_date (Row.getD r "Date") = "2026-01-14"))).map
        (fun r => Row.getD r "V")) :=
  C2_amended_cell_preservation ⟨["Date", "V"], [["2026-01-14", "x"], ["2026-01-15", "y"]]⟩
    [[("Date", "2026-01-15")]] "T1" "2026-01-14" "V" (by decide) (by decide) (by decide)
    (by decide) (by decide) (by decide) (by decide)

/-! ## C6 — descending stable sort of the written table -/

/-- Reading back a written sorted table yields a sorted record list:
materialization preserves each row's sort key when the `Date` column is
among the written columns. -/
theorem sorted_readback_writeWS {cols : List String} (hD : "Date" ∈ cols)
    (rows : List Row) :
    List.Sorted rowOrd (getAllRecords (writeWS cols (sortRows rows))) := by
  rw [getAllRecords_writeWS]
  refine List.Pairwise.map _ (fun a b hab => ?_) (List.sorted_insertionSort rowOrd rows)
  show rowOrd (rbRow cols a) (rbRow cols b)
  unfold rowOrd
  rw [sortKey_rbRow hD, sortKey_rbRow hD]
  exact hab

theorem sorted_upsertFinish {cols : List String} (hD : "Date" ∈ cols)
    (rows : List Row) :
    List.Sorted rowOrd (getAllRecords (upsertFinish cols rows)) := by
  simp only [upsertFinish]
  rw [if_pos hD]
  exact sorted_readback_writeWS hD rows

/-- The executable `sortRows` is one admissible behaviour of the
`sort_values` contract: a sorted permutation whose `NaT` block keeps its
original order. -/
theorem sortRows_sortValuesSpec (l : List Row) : sortValuesSpec l (sortRows l) := by
  refine ⟨List.perm_insertionSort rowOrd l, List.sorted_insertionSort rowOrd l, ?_⟩
  rw [filter_sortRows]
  refine sortRows_of_ties fun a ha b hb => rowOrd_of_ties ?_
  have h1 : sortKey a = none := of_decide_eq_true (List.mem_filter.mp ha).2
  have h2 : sortKey b = none := of_decide_eq_true (List.mem_filter.mp hb).2
  rw [h1, h2]

/-- C6 counterexample — the sort contract of the source (`sort_values`
with the default `kind='quicksort'`, which pandas documents as not
stable) admits a sorted output in which two rows with equal parseable
`Date` keys appear in the opposite of their original relative order:
tie stability, and with it byte-identical row order across repeated
reconciliations of the same inputs, is not guaranteed by the program. -/
theorem C6_counterexample :
    sortValuesSpec
      [[("Date", "2026-01-01"), ("V", "a")], [("Date", "2026-01-01"), ("V", "b")]]
      [[("Date", "2026-01-01"), ("V", "b")], [("Date", "2026-01-01"), ("V", "a")]]
    ∧ sortKey [("Date", "2026-01-01"), ("V", "a")]
        = sortKey [("Date", "2026-01-01"), ("V", "b")]
    ∧ [[("Date", "2026-01-01"), ("V", "b")], [("Date", "2026-01-01"), ("V", "a")]]
      ≠ [[("Date", "2026-01-01"), ("V", "a")], [("Date", "2026-01-01"), ("V", "b")]] := by
  refine ⟨⟨?_, ?_, rfl⟩, rfl, by decide⟩
  · decide
  · decide

/-- C6 (amended) — what the write paths do guarantee: the written table
is sorted by the `Date` column descending with unparseable dates last
(`rowOrd`), for both write paths — a normally-returning `_upsert_data`
call on a non-empty batch, and a writing `_incremental_merge_data` call
on a non-empty batch with a `Date` column — and the executable sort is
an admissible behaviour of the `sort_values` contract (a sorted
permutation with the `NaT` block in original order).  Tie order among
equal parseable dates is not part of that contract, the default sort
kind being documented as not stable; `C6_counterexample` refutes the
stability half of the original claim. -/
theorem C6_amended_sorted_write :
    (∀ (ws : WS) (B : List Row) (now : String), B ≠ [] →
        (upsertData ws B "Date" now).2 = UpOutcome.ok →
        List.Sorted rowOrd (getAllRecords (upsertData ws B "Date" now).1))
    ∧ (∀ (ws : WS) (B : List Row), B ≠ [] → "Date" ∈ dfCols B →
        List.Sorted rowOrd (getAllRecords (incrementalMergeData ws B).1))
    ∧ (∀ l : List Row, sortValuesSpec l (sortRows l)) := by
  refine ⟨?_, ?_, sortRows_sortValuesSpec⟩
  · intro ws B now hB hok
    cases B with
    | nil => exact absurd rfl hB
    | cons b0 bs =>
      simp only [upsertData] at hok ⊢
      by_cases hL : "Last_Fetched_At" ∈ dfCols (b0 :: bs)
      · rw [if_pos hL, if_pos hL] at hok ⊢
        by_cases hn1 : "Date" ∈ dfCols (b0 :: bs)
        · rw [if_neg (not_not_intro hn1), if_pos hn1] at hok ⊢
          by_cases he : dfCols (getAllRecords ws) = []
          · rw [if_pos he]
            exact sorted_upsertFinish hn1 _
          · rw [if_neg he] at hok ⊢
            by_cases hkE : "Date" ∈ dfCols (getAllRecords ws)
            · rw [if_neg (not_not_intro hkE)] at hok ⊢
              cases hmb : upsertMergeBranch "Date" (dfCols (getAllRecords ws))
                  (dfCols (b0 :: bs))
                  (if ¬ dfCols (getAllRecords ws) = [] ∧ "Date" ∈ dfCols (getAllRecords ws)
                    then applyDateCol (getAllRecords ws) else getAllRecords ws)
                  (astypeKey "Date" (applyDateCol (b0 :: bs))) with
              | none =>
                rw [hmb] at hok
                exact UpOutcome.noConfusion hok
              | some ws2 =>
                show List.Sorted rowOrd (getAllRecords ws2)
                rw [upsertMergeBranch_some hmb]
                exact sorted_upsertFinish (List.mem_cons_self _ _) _
            · rw [if_pos hkE] at hok
              exact UpOutcome.noConfusion hok
        · rw [if_pos hn1] at hok
          exact UpOutcome.noConfusion hok
      · rw [if_neg hL, if_neg hL] at hok ⊢
        by_cases hn1 : "Date" ∈ dfCols (b0 :: bs) ++ ["Last_Fetched_At"]
        · rw [if_neg (not_not_intro hn1), if_pos hn1] at hok ⊢
          by_cases he : dfCols (getAllRecords ws) = []
          · rw [if_pos he]
            exact sorted_upsertFinish hn1 _
          · rw [if_neg he] at hok ⊢
            by_cases hkE : "Date" ∈ dfCols (getAllRecords ws)
            · rw [if_neg (not_not_intro hkE)] at hok ⊢
              cases hmb : upsertMergeBranch "Date" (dfCols (getAllRecords ws))
                  (dfCols (b0 :: bs) ++ ["Last_Fetched_At"])
                  (if ¬ dfCols (getAllRecords ws) = [] ∧ "Date" ∈ dfCols (getAllRecords ws)
                    then applyDateCol (getAllRecords ws) else getAllRecords ws)
                  (astypeKey "Date" (applyDateCol
                    ((b0 :: bs).map (fun r => Row.set r "Last_Fetched_At" now)))) with
              | none =>
                rw [hmb] at hok
                exact UpOutcome.noConfusion hok
              | some ws2 =>
                show List.Sorted rowOrd (getAllRecords ws2)
                rw [upsertMergeBranch_some hmb]
                exact sorted_upsertFinish (List.mem_cons_self _ _) _
            · rw [if_pos hkE] at hok
              exact UpOutcome.noConfusion hok
        · rw [if_pos hn1] at hok
          exact UpOutcome.noConfusion hok
  · intro ws B hB hD
    cases B with
    | nil => exact absurd rfl hB
    | cons b0 bs =>
      rw [incrementalMergeData_cons]
      by_cases he : dfCols (getAllRecords ws) = []
      · rw [if_pos he, if_pos hD]
        exact sorted_readback_writeWS hD _
      · have hD2 : "Date" ∈ colUnion (dfCols (getAllRecords ws)) (dfCols (b0 :: bs)) :=
          mem_colUnion.mpr (Or.inr hD)
        rw [if_neg he, if_neg (by simpa using hD), if_pos hD2]
        exact sorted_readback_writeWS hD2 _

/-- Witness for C6 (amended): a one-row sheet merged with a one-row
batch, on both write paths. -/
theorem C6_amended_sorted_write_witness :
    List.Sorted rowOrd (getAllRecords (upsertData ⟨["Date"], [["2026-01-01"]]⟩
        [[("Date", "2026-01-02")]] "Date" "T").1)
    ∧ List.Sorted rowOrd (getAllRecords (incrementalMergeData ⟨["Date"], [["2026-01-01"]]⟩
        [[("Date", "2026-01-02")]]).1) :=
  ⟨C6_amended_sorted_write.1 ⟨["Date"], [["2026-01-01"]]⟩ [[("Date", "2026-01-02")]] "T"
      (by decide) (by decide),
    C6_amended_sorted_write.2.1 ⟨["Date"], [["2026-01-01"]]⟩ [[("Date", "2026-01-02")]]
      (by decide) (by decide)⟩
